import Mathlib

/-!
# A shallow embedding of the `lsh` library (`lsh/__init__.py`)

This file models the LSH/MinHash duplicate-detection cache of the `lsh`
python package: the `Shingler`, the minhash signature builder `_get_sig`,
the band hashing `_get_lsh`, the bucket tables of `LSHCache`, the
configuration solver in `LSHCache.__init__`, and the public operations
`insert`, `insert_batch`, `get_dup_buckets`, `get_dups`.

Modelling conventions:
* Python ints are `Int` (hash values, document ids) or `Nat` (sizes,
  fingerprints, signature entries, which are always non-negative).
* Python dicts (`defaultdict(list)` bucket tables, the `_seen` map) are
  association lists.  `defaultdict` look-up of a missing key inserts an
  empty value; the model reproduces that (`queryBands`).
* The built-in `hash` applied to signature tuples, and the configurable
  `shingle_hash` applied to shingle tuples, are CPython-specific; they are
  carried as opaque function fields of the cache record, fixed per cache,
  exactly as a single interpreter session fixes them.
* `sys.maxint` is `2 ^ 63 - 1` (64-bit CPython 2).
* Exceptions are modelled with `Except`; the error value carries the
  state of the cache object at the moment the exception escapes (Python
  mutates in place, so a caller catching the exception observes it).
-/

namespace Lsh

inductive PyErr where
  | assertionError
  | typeError
  | keyError
  | indexError
deriving DecidableEq

/-- `sys.maxint` on 64-bit CPython 2, the initial sentinel of `_get_sig`. -/
def sentinel : Nat := 2 ^ 63 - 1

/-- Python `x % U` for a (possibly negative) int `x` and positive modulus
`U`: the result has the sign of the modulus, i.e. `Int.emod`.  (Python
raises `ZeroDivisionError` for `U = 0`; every theorem below that touches a
modulus assumes `0 < U`.) -/
def pymod (x : Int) (U : Nat) : Nat := (x % (U : Int)).toNat

/-- `Shingler._begin_shingle` / `_end_shingle` (end exclusive). -/
structure Shingler where
  beginShingle : Nat
  endShingle : Nat
deriving DecidableEq

/-- `Shingler.shingle(doc)`: for each shingle length `k` in
`[_begin_shingle, _end_shingle)`, a document shorter than `k` yields the
single tuple padded with `k - len(doc)` leading `None`s; otherwise all
`len(doc) - (k-1)` contiguous `k`-grams, in order.  Tokens are wrapped in
`some`, the `None` sentinel is `none`. -/
def shingleList {α : Type} (sh : Shingler) (doc : List α) : List (List (Option α)) :=
  (List.range' sh.beginShingle (sh.endShingle - sh.beginShingle)).flatMap fun k =>
    if doc.length < k then
      [List.replicate (k - doc.length) none ++ doc.map some]
    else
      (List.range (doc.length - (k - 1))).map fun j => ((doc.drop j).take k).map some

/-- Association-list look-up, modelling Python dict `d[k]` / `k in d`. -/
def alookup {β : Type} : List (Int × β) → Int → Option β
  | [], _ => none
  | (k', v) :: t, k => if k = k' then some v else alookup t k

/-- Association-list store, modelling Python dict `d[k] = v`. -/
def aset {β : Type} : List (Int × β) → Int → β → List (Int × β)
  | [], k, v => [(k, v)]
  | (k', v') :: t, k, v => if k = k' then (k', v) :: t else (k', v') :: aset t k v

/-- The bucket table of one band: band key -> ordered list of document ids. -/
abbrev Band : Type := List (Int × List Int)

/-- The state of an `LSHCache` object, together with its (immutable)
configuration.  `minhash` is the callable obtained at construction
(`MultiplyHashFamily(n, universe_size).hashn` by default, or any function
returning a sequence of `n` hashes); `shingleHash` is the `shingle_hash`
argument (built-in `hash` by default); `bandHash` is the built-in `hash`
on signature slices, opaque but fixed. -/
structure LSHCache (α : Type) where
  b : Nat
  r : Nat
  n : Nat
  shingler : Shingler
  shingleHash : List (Option α) → Int
  minhash : Nat → List Int
  bandHash : List Nat → Int
  universeSize : Nat
  storeSignatures : Bool
  dupsOnInsert : Bool
  seen : List (Int × Option (List Int))
  nextId : Int
  cache : List Band

/-- `LSHCache._get_shingle_vec`: the set of shingle fingerprints
`shingle_hash(shingle) % universe_size`.  Python builds a `set`; order and
multiplicity are irrelevant downstream (only minima are taken), so the
model keeps a duplicate-free list. -/
def getShingleVec {α : Type} (c : LSHCache α) (doc : List α) : List Nat :=
  ((shingleList c.shingler doc).map fun s => pymod (c.shingleHash s) c.universeSize).dedup

/-- Pointwise `mhash[i] = h % U if h % U < mhash[i]` update of one family
output against the running minima (positions beyond the output are kept). -/
def pointMin (U : Nat) : List Nat → List Int → List Nat
  | m, [] => m
  | [], _ :: _ => []
  | a :: m, h :: hs => min a (pymod h U) :: pointMin U m hs

/-- One iteration of the `for shingle in shingle_vec` loop of
`LSHCache._get_sig`: apply all hashes of one fingerprint.  If the family
yields more hashes than `mhash` has entries, Python raises `IndexError`
at `mhash[i]`; the model returns `none`. -/
def sigStep (U : Nat) (mh : Nat → List Int) (acc : Option (List Nat)) (x : Nat) :
    Option (List Nat) :=
  acc.bind fun m =>
    if m.length < (mh x).length then none else some (pointMin U m (mh x))

/-- `LSHCache._get_sig`: fold all fingerprints over the `n`-vector of
minima initialised to `sys.maxint`. -/
def getSig (n U : Nat) (mh : Nat → List Int) (sv : List Nat) : Option (List Nat) :=
  sv.foldl (sigStep U mh) (some (List.replicate n sentinel))

/-- `LSHCache._get_lsh`: hash each of the `b` bands of `r` rows,
`lsh[i] = hash(tuple(sig[r*i : r*(i+1)]))`. -/
def getLsh (b r : Nat) (bh : List Nat → Int) (sig : List Nat) : List Int :=
  (List.range b).map fun i => bh ((sig.drop (r * i)).take r)

/-- `LSHCache._get_lsh_from_doc`. -/
def getLshFromDoc {α : Type} (c : LSHCache α) (doc : List α) : Option (List Int) :=
  (getSig c.n c.universeSize c.minhash (getShingleVec c doc)).map
    (getLsh c.b c.r c.bandHash)

/-- The bucket-table loop of `LSHCache._insert_lsh`: walk the band tables
and band keys in parallel; for each band read the current bucket (missing
keys read as `[]` — `defaultdict(list)`), feed it to the accumulator, and
append the new id.  Returns the concatenation of the bucket reads and the
updated tables. -/
def insertBands : List Band → List Int → Int → List Int × List Band
  | bs, [], _ => ([], bs)
  | [], _ :: _, _ => ([], [])
  | bd :: bs, k :: ks, docId =>
    let arr := (alookup bd k).getD []
    let p := insertBands bs ks docId
    (arr ++ p.1, aset bd k (arr ++ [docId]) :: p.2)

/-- The bucket-table loop of `LSHCache.get_dup_buckets`: read the bucket
of each band.  Reading a missing key of a `defaultdict` inserts an empty list
for it, so the returned tables may have new (empty) entries. -/
def queryBands : List Band → List Int → List (List Int) × List Band
  | bs, [] => ([], bs)
  | [], _ :: _ => ([], [])
  | bd :: bs, k :: ks =>
    let arr := (alookup bd k).getD []
    let bd' := if (alookup bd k).isSome then bd else bd ++ [(k, [])]
    let p := queryBands bs ks
    (arr :: p.1, bd' :: p.2)

/-- The state mutation performed by a successful (or index-failing)
`LSHCache._insert_lsh`: record the id in `_seen` (the band-key vector if
signatures are stored, else `None`), bump `_next_id`, append the id to
each addressed bucket. -/
def insMut {α : Type} (c : LSHCache α) (lsh : List Int) (docId : Int) : LSHCache α :=
  { c with
    seen := aset c.seen docId (if c.storeSignatures then some lsh else none)
    nextId := if c.nextId ≤ docId then docId + 1 else c.nextId
    cache := (insertBands c.cache lsh docId).2 }

inductive InsertRes where
  | dups (ids : List Int)
  | newId (id : Int)
deriving DecidableEq

/-- `LSHCache._insert_lsh`.  The leading assert rejects an id already in
`_seen` before any mutation.  With `dups_on_insert` the accumulator is
`AccumulatorDups` (the union of the bucket reads), otherwise
`AccumulatorDocId` (the id itself).  If the band-key vector is longer than
the table list, Python raises `IndexError` after having processed every
table and updated `_seen` / `_next_id`. -/
def insertLsh {α : Type} (c : LSHCache α) (lsh : List Int) (docId : Int) :
    Except (PyErr × LSHCache α) (InsertRes × LSHCache α) :=
  if (alookup c.seen docId).isSome then
    Except.error (PyErr.assertionError, c)
  else if c.cache.length < lsh.length then
    Except.error (PyErr.indexError, insMut c lsh docId)
  else
    Except.ok
      ((if c.dupsOnInsert then InsertRes.dups (insertBands c.cache lsh docId).1
        else InsertRes.newId docId), insMut c lsh docId)

/-- `LSHCache.insert(doc, doc_id=None)`: default the id to `_next_id`,
hash the document to band keys, insert.  A malformed minhash family makes
`_get_sig` raise before any mutation. -/
def insert {α : Type} (c : LSHCache α) (doc : List α) (docId? : Option Int) :
    Except (PyErr × LSHCache α) (InsertRes × LSHCache α) :=
  match getLshFromDoc c doc with
  | none => Except.error (PyErr.indexError, c)
  | some lsh => insertLsh c lsh (docId?.getD c.nextId)

/-- The band-key determination shared by `get_dup_buckets` and `get_dups`:
a non-empty document is hashed; otherwise `store_signatures` must hold and
a `doc_id` must be given, and the stored vector is read from `_seen`
(`KeyError` if absent; iterating a stored `None` raises `TypeError`). -/
def lookupLsh {α : Type} (c : LSHCache α) (doc : List α) (docId? : Option Int) :
    Except (PyErr × LSHCache α) (List Int) :=
  if doc.isEmpty = false then
    match getLshFromDoc c doc with
    | none => Except.error (PyErr.indexError, c)
    | some lsh => Except.ok lsh
  else if c.storeSignatures = false then
    Except.error (PyErr.assertionError, c)
  else
    match docId? with
    | none => Except.error (PyErr.assertionError, c)
    | some id =>
      match alookup c.seen id with
      | none => Except.error (PyErr.keyError, c)
      | some none => Except.error (PyErr.typeError, c)
      | some (some lsh) => Except.ok lsh

/-- `LSHCache.get_dup_buckets(doc, doc_id=None)`, fully iterated: the list
of the `b` bucket reads.  Reading vivifies missing keys (see
`queryBands`); a band-key vector longer than the table list raises
`IndexError` after all tables were read. -/
def getDupBuckets {α : Type} (c : LSHCache α) (doc : List α) (docId? : Option Int) :
    Except (PyErr × LSHCache α) (List (List Int) × LSHCache α) :=
  match lookupLsh c doc docId? with
  | Except.error e => Except.error e
  | Except.ok lsh =>
    if c.cache.length < lsh.length then
      Except.error (PyErr.indexError, { c with cache := (queryBands c.cache lsh).2 })
    else
      Except.ok ((queryBands c.cache lsh).1, { c with cache := (queryBands c.cache lsh).2 })

/-- The value `LSHCache._reduce_dup_buckets` can produce: when there are no
buckets, `reduce(set.update, buckets, set)` returns its initial value —
the built-in *type* `set` itself, not a set of ids. -/
inductive DupsRes where
  | setType
deriving DecidableEq

/-- `LSHCache.get_dups(doc, doc_id=None)`, i.e.
`_reduce_dup_buckets(get_dup_buckets(doc, doc_id), doc_id)`.
`reduce(set.update, buckets, set)` uses the built-in type `set` as the
initial accumulator, so as soon as one bucket is yielded the first step
calls `set.update` with the class object as receiver and raises
`TypeError` (and `set.update` returns `None`, so a second step would fail
too).  `reduce` consumes the generator lazily: only the bucket of the
first band is read (vivifying its key) before the exception.  With no bucket
at all the fold returns the class object; `set.discard` on it then raises
`TypeError` when a `doc_id` was given. -/
def getDups {α : Type} (c : LSHCache α) (doc : List α) (docId? : Option Int) :
    Except (PyErr × LSHCache α) (DupsRes × LSHCache α) :=
  match lookupLsh c doc docId? with
  | Except.error e => Except.error e
  | Except.ok lsh =>
    match lsh with
    | [] =>
      match docId? with
      | some _ => Except.error (PyErr.typeError, c)
      | none => Except.ok (DupsRes.setType, c)
    | k :: _ =>
      match c.cache with
      | [] => Except.error (PyErr.indexError, c)
      | bd :: rest =>
        Except.error (PyErr.typeError,
          { c with cache := (if (alookup bd k).isSome then bd else bd ++ [(k, [])]) :: rest })

/-- An element of the `docs` argument of `insert_batch` when the token
type makes the two cases disjoint: either a plain token sequence, or a
`(doc, id)` pair — a length-2 sequence whose second item is an int, which
the loop destructures into `insert(doc, id)`. -/
inductive BatchElem (α : Type) where
  | doc (d : List α)
  | pairDI (d : List α) (id : Int)

/-- The per-element dispatch of `LSHCache.insert_batch`:
`len(doc_tuple) == 2 and isinstance(doc_tuple[1], int)` selects
`insert(*doc_tuple)`, anything else is passed whole as the document. -/
def insertElem {α : Type} (c : LSHCache α) :
    BatchElem α → Except (PyErr × LSHCache α) (InsertRes × LSHCache α)
  | BatchElem.doc d => insert c d none
  | BatchElem.pairDI d i => insert c d (some i)

/-- One iteration of the `insert_batch` loop: append the insert result of the element to the accumulated list (an already-escaped exception stays). -/
def batchStep {α : Type}
    (acc : Except (PyErr × LSHCache α) (List InsertRes × LSHCache α))
    (e : BatchElem α) : Except (PyErr × LSHCache α) (List InsertRes × LSHCache α) :=
  match acc with
  | Except.error st => Except.error st
  | Except.ok (rs, c1) =>
    match insertElem c1 e with
    | Except.error st => Except.error st
    | Except.ok (res, c2) => Except.ok (rs ++ [res], c2)

/-- `LSHCache.insert_batch(docs)`: the accumulating loop
(`dups = []; for doc_tuple in docs: dups.append(...)`).  An exception
aborts the loop and escapes. -/
def insertBatch {α : Type} (c : LSHCache α) (docs : List (BatchElem α)) :
    Except (PyErr × LSHCache α) (List InsertRes × LSHCache α) :=
  docs.foldl batchStep (Except.ok ([], c))

/-- The reading of `insert_batch` in the specification: invoke `insert` once per element
in order (with the `(doc, id)` dispatch) and return the per-element
results in the same order. -/
def insertBatchSpec {α : Type} (c : LSHCache α) :
    List (BatchElem α) → Except (PyErr × LSHCache α) (List InsertRes × LSHCache α)
  | [] => Except.ok ([], c)
  | e :: es =>
    match insertElem c e with
    | Except.error st => Except.error st
    | Except.ok (res, c1) =>
      match insertBatchSpec c1 es with
      | Except.error st => Except.error st
      | Except.ok (rs, c2) => Except.ok (res :: rs, c2)

/-- `LSHCache.insert_batch` at the instantiation where tokens are Python
ints.  Then every two-token document satisfies
`len(doc_tuple) == 2 and isinstance(doc_tuple[1], int)`, so the loop calls
`insert(doc_tuple[0], doc_tuple[1])` with an *integer* as the document;
computing its shingles evaluates `len()` of that integer and raises
`TypeError` before any mutation. -/
def insertBatchIntTokens (c : LSHCache Int) (docs : List (List Int)) :
    Except (PyErr × LSHCache Int) (List InsertRes × LSHCache Int) :=
  docs.foldl
    (fun acc d =>
      match acc with
      | Except.error st => Except.error st
      | Except.ok (rs, c1) =>
        if d.length = 2 then Except.error (PyErr.typeError, c1)
        else
          match insert c1 d none with
          | Except.error st => Except.error st
          | Except.ok (res, c2) => Except.ok (rs ++ [res], c2))
    (Except.ok ([], c))

/-- The claimed semantics of `insert_batch` at the same instantiation:
every element is treated as one document. -/
def insertBatchAsDocs (c : LSHCache Int) (docs : List (List Int)) :
    Except (PyErr × LSHCache Int) (List InsertRes × LSHCache Int) :=
  docs.foldl
    (fun acc d =>
      match acc with
      | Except.error st => Except.error st
      | Except.ok (rs, c1) =>
        match insert c1 d none with
        | Except.error st => Except.error st
        | Except.ok (res, c2) => Except.ok (rs ++ [res], c2))
    (Except.ok ([], c))

/-- Largest `s ≤ bound` with `s * s ≤ n` (an executable integer square
root; `intSqrt` below agrees with `Nat.sqrt`, see `intSqrt_eq_sqrt`). -/
def intSqrtFrom (n : Nat) : Nat → Nat
  | 0 => 0
  | s + 1 => if (s + 1) * (s + 1) ≤ n then s + 1 else intSqrtFrom n s

/-- `int(math.sqrt(n))` (exact on the range where the float computation
is exact). -/
def intSqrt (n : Nat) : Nat := intSqrtFrom n n

/-- The descending divisor search
`for b in xrange(int(sqrt(n)), 1, -1): if n % b == 0: ...` of
`LSHCache.__init__`, started at `start`. -/
def findBFrom (n : Nat) : Nat → Option Nat
  | 0 => none
  | 1 => none
  | (b + 2) => if n % (b + 2) = 0 then some (b + 2) else findBFrom n (b + 1)

/-- The final `assert b*r == n` of the configuration code. -/
def checkBRN (b r n : Nat) : Except PyErr (Nat × Nat × Nat) :=
  if b * r = n then Except.ok (b, r, n) else Except.error PyErr.assertionError

/-- The `(b, r, n)` resolution of `LSHCache.__init__`: default to
`(20, 5)` when nothing is given; derive the missing quantity from the
other two (divisibility asserted); with only `n`, factor it by the
largest divisor at most `int(sqrt(n))` and at least 2 (`int(math.sqrt n)`
is modelled by `Nat.sqrt`, with which it agrees on the representable
range). -/
def solveConfig (b? r? n? : Option Nat) : Except PyErr (Nat × Nat × Nat) :=
  match b?, r?, n? with
  | none, none, none => checkBRN 20 5 (20 * 5)
  | some b, some r, none => checkBRN b r (b * r)
  | some _, none, none => Except.error PyErr.assertionError
  | none, some _, none => Except.error PyErr.assertionError
  | none, some r, some n =>
    if n % r = 0 then checkBRN (n / r) r n else Except.error PyErr.assertionError
  | some b, none, some n =>
    if n % b = 0 then checkBRN b (n / b) n else Except.error PyErr.assertionError
  | some b, some r, some n => checkBRN b r n
  | none, none, some n =>
    match findBFrom n (intSqrt n) with
    | some b => checkBRN b (n / b) n
    | none => Except.error PyErr.assertionError

/-- `LSHCache.__init__`: resolve the configuration and start with empty
`_seen`, `_next_id = 0` and `b` empty band tables. -/
def mkCache {α : Type} (b? r? n? : Option Nat) (sh : Shingler)
    (shash : List (Option α) → Int) (U : Nat) (mh : Nat → List Int)
    (bh : List Nat → Int) (ss di : Bool) : Except PyErr (LSHCache α) :=
  match solveConfig b? r? n? with
  | Except.error e => Except.error e
  | Except.ok (b, r, n) =>
    Except.ok
      { b := b, r := r, n := n, shingler := sh, shingleHash := shash, minhash := mh,
        bandHash := bh, universeSize := U, storeSignatures := ss, dupsOnInsert := di,
        seen := [], nextId := 0, cache := List.replicate b [] }

/-- `XORHashFamily.hashn`: trim to 32 bits, xor each mask. -/
def xorHash (masks : List Nat) (x : Nat) : List Int :=
  masks.map fun m => ((Nat.xor (x % 2 ^ 32) m : Nat) : Int)

/-- `MultiplyHashFamily.hashn`: `a*(x>>4) + b*x + c` per parameter triple. -/
def multiplyHash (params : List (Int × Int × Int)) (x : Nat) : List Int :=
  params.map fun p => p.1 * ((x : Int) / 16) + p.2.1 * (x : Int) + p.2.2

/-- One observable operation on a live cache object (both outcomes: normal
return and escaped exception, each with the object state it leaves
behind). -/
inductive StepTo {α : Type} : LSHCache α → LSHCache α → Prop where
  | insertOk {c c' : LSHCache α} (doc : List α) (docId? : Option Int) (res : InsertRes) :
      insert c doc docId? = Except.ok (res, c') → StepTo c c'
  | insertErr {c c' : LSHCache α} (doc : List α) (docId? : Option Int) (e : PyErr) :
      insert c doc docId? = Except.error (e, c') → StepTo c c'
  | queryOk {c c' : LSHCache α} (doc : List α) (docId? : Option Int) (bs : List (List Int)) :
      getDupBuckets c doc docId? = Except.ok (bs, c') → StepTo c c'
  | queryErr {c c' : LSHCache α} (doc : List α) (docId? : Option Int) (e : PyErr) :
      getDupBuckets c doc docId? = Except.error (e, c') → StepTo c c'
  | dupsOk {c c' : LSHCache α} (doc : List α) (docId? : Option Int) (res : DupsRes) :
      getDups c doc docId? = Except.ok (res, c') → StepTo c c'
  | dupsErr {c c' : LSHCache α} (doc : List α) (docId? : Option Int) (e : PyErr) :
      getDups c doc docId? = Except.error (e, c') → StepTo c c'

/-- Zero or more operations. -/
def ReachableFrom {α : Type} : LSHCache α → LSHCache α → Prop :=
  Relation.ReflTransGen StepTo

/-- A cache state reachable from some construction by operations. -/
def Reachable {α : Type} (c : LSHCache α) : Prop :=
  ∃ (b? r? n? : Option Nat) (sh : Shingler) (shash : List (Option α) → Int) (U : Nat)
    (mh : Nat → List Int) (bh : List Nat → Int) (ss di : Bool) (c0 : LSHCache α),
    mkCache b? r? n? sh shash U mh bh ss di = Except.ok c0 ∧ ReachableFrom c0 c

/-- The id list a band table holds at position `j`, key `k` (missing
tables and keys read as empty, like `defaultdict(list)`). -/
def bandRead {α : Type} (c : LSHCache α) (j : Nat) (k : Int) : List Int :=
  (alookup (c.cache.getD j []) k).getD []

/-- Every id stored in some bucket has been recorded in `_seen`. -/
def SeenInBuckets {α : Type} (c : LSHCache α) : Prop :=
  ∀ j k x, x ∈ bandRead c j k → (alookup c.seen x).isSome = true

/-- Observable equality of query-relevant state: `_seen`, `_next_id` and
every bucket read. -/
def queryObsEq {α : Type} (c c' : LSHCache α) : Prop :=
  c'.seen = c.seen ∧ c'.nextId = c.nextId ∧ ∀ j k, bandRead c' j k = bandRead c j k

/-- Well-formedness that `LSHCache.__init__` establishes: one band table
per band, a positive universe, a minhash family of exactly `n` hashes. -/
def WFCache {α : Type} (c : LSHCache α) : Prop :=
  c.cache.length = c.b ∧ 0 < c.universeSize ∧ ∀ x, (c.minhash x).length = c.n

/-- `True` exactly on an escaped `TypeError`. -/
def exTypeError {α : Type} {β : Type} : Except (PyErr × LSHCache α) β → Bool
  | Except.error (PyErr.typeError, _) => true
  | _ => false

/-! ## Concrete instances

Small executable caches used to instantiate the theorems below.  The hash
functions are simple concrete stand-ins (any functions are admissible:
`shingle_hash` is a constructor argument, the band hash is the opaque
built-in tuple hash, and the minhash argument may be "a method that takes
a single argument and returns a sequence of n hashes"). -/

def shW : Shingler := { beginShingle := 2, endShingle := 3 }

def fW : List (Option Int) → Int := fun s => (s.length : Int)

def mhW : Nat → List Int := fun x => [(x : Int)]

def bhW : List Nat → Int := fun l => ((l.foldl (fun a x => a + x) 0 : Nat) : Int)

/-- `LSHCache(b=1, r=1, ...)` over int tokens, fresh. -/
def cW : LSHCache Int :=
  { b := 1, r := 1, n := 1, shingler := shW, shingleHash := fW, minhash := mhW,
    bandHash := bhW, universeSize := 5, storeSignatures := false, dupsOnInsert := true,
    seen := [], nextId := 0, cache := [[]] }

/-- `cW` after `insert([1, 2])` (which allocates id 0). -/
def cW1 : LSHCache Int :=
  { cW with seen := [((0 : Int), (none : Option (List Int)))], nextId := 1,
            cache := [[((2 : Int), [(0 : Int)])]] }

/-- `cW` after its band-0 table vivified the key 2 with an empty bucket. -/
def cWviv : LSHCache Int :=
  { cW with cache := [[((2 : Int), ([] : List Int))]] }

def mh0 : Nat → List Int := fun _ => []

/-- `LSHCache(b=0, r=5)`: a constructible degenerate cache with no bands
(`n = 0`, so the minhash family yields no hashes). -/
def cB0 : LSHCache Int :=
  { b := 0, r := 5, n := 0, shingler := shW, shingleHash := fW, minhash := mh0,
    bandHash := bhW, universeSize := 5, storeSignatures := false, dupsOnInsert := true,
    seen := [], nextId := 0, cache := [] }

/-- `cB0` after `insert([1, 2])` (id 0). -/
def cB0a : LSHCache Int :=
  { cB0 with seen := [((0 : Int), (none : Option (List Int)))], nextId := 1 }

/-- `cB0a` after `insert([1, 2], 7)`. -/
def cB0b : LSHCache Int :=
  { cB0a with
    seen := [((0 : Int), (none : Option (List Int))),
             ((7 : Int), (none : Option (List Int)))],
    nextId := 8 }

/-- A two-hash family used to instantiate the signature theorem. -/
def mhC3 : Nat → List Int := fun x => [(x : Int), (x : Int) + 1]

/-- `cW1` after `insert([1, 2], 5)`. -/
def cW2 : LSHCache Int :=
  { cW with seen := [((0 : Int), (none : Option (List Int))),
                     ((5 : Int), (none : Option (List Int)))], nextId := 6,
            cache := [[((2 : Int), [(0 : Int), (5 : Int)])]] }

/-! ## Association-list lemmas -/

theorem alookup_aset_self {β : Type} (m : List (Int × β)) (k : Int) (v : β) :
    alookup (aset m k v) k = some v := by
  induction m with
  | nil => simp [aset, alookup]
  | cons h t ih =>
    obtain ⟨k', v'⟩ := h
    by_cases hk : k = k'
    · simp [aset, alookup, hk]
    · simp [aset, alookup, hk, ih]

theorem alookup_aset_ne {β : Type} (m : List (Int × β)) (k k' : Int) (v : β)
    (h : k' ≠ k) : alookup (aset m k v) k' = alookup m k' := by
  induction m with
  | nil => simp [aset, alookup, h]
  | cons hd t ih =>
    obtain ⟨k0, v0⟩ := hd
    by_cases hk : k = k0
    · subst hk
      simp [aset, alookup, h]
    · by_cases hk' : k' = k0 <;> simp [aset, alookup, hk, hk', ih]

theorem alookup_aset_isSome {β : Type} (m : List (Int × β)) (k k' : Int) (v : β)
    (h : (alookup m k').isSome = true) : (alookup (aset m k v) k').isSome = true := by
  by_cases hk : k' = k
  · subst hk
    simp [alookup_aset_self]
  · rwa [alookup_aset_ne m k k' v hk]

theorem alookup_viv_getD (bd : Band) (k k' : Int) :
    (alookup (bd ++ [(k, ([] : List Int))]) k').getD [] = (alookup bd k').getD [] := by
  induction bd with
  | nil =>
    by_cases hk : k' = k <;> simp [alookup, hk]
  | cons hd t ih =>
    obtain ⟨k0, v0⟩ := hd
    by_cases hk : k' = k0 <;> simp [alookup, hk, ih]

/-! ## `insertBands` lemmas -/

theorem insertBands_length (bands : List Band) (lsh : List Int) (docId : Int) :
    (insertBands bands lsh docId).2.length = bands.length := by
  induction bands generalizing lsh with
  | nil => cases lsh <;> simp [insertBands]
  | cons bd bs ih =>
    cases lsh with
    | nil => simp [insertBands]
    | cons k ks => simp [insertBands, ih]

theorem insertBands_read (bands : List Band) (lsh : List Int) (docId : Int)
    (j : Nat) (k : Int) :
    alookup ((insertBands bands lsh docId).2.getD j []) k =
      if j < lsh.length ∧ j < bands.length ∧ k = lsh.getD j 0 then
        some (((alookup (bands.getD j []) k).getD []) ++ [docId])
      else alookup (bands.getD j []) k := by
  induction bands generalizing lsh j with
  | nil =>
    cases lsh <;> simp [insertBands]
  | cons bd bs ih =>
    cases lsh with
    | nil => simp [insertBands]
    | cons k0 ks =>
      cases j with
      | zero =>
        by_cases hk : k = k0
        · subst hk
          simp [insertBands, alookup_aset_self]
        · simp [insertBands, alookup_aset_ne bd k0 k _ hk, hk]
      | succ j =>
        simpa [insertBands, Nat.succ_lt_succ_iff] using ih ks j

theorem insertBands_dups_sub (bands : List Band) (lsh : List Int) (docId : Int)
    (x : Int) (hx : x ∈ (insertBands bands lsh docId).1) :
    ∃ j, j < lsh.length ∧ j < bands.length ∧
      x ∈ (alookup (bands.getD j []) (lsh.getD j 0)).getD [] := by
  induction bands generalizing lsh with
  | nil =>
    cases lsh <;> simp [insertBands] at hx
  | cons bd bs ih =>
    cases lsh with
    | nil => simp [insertBands] at hx
    | cons k0 ks =>
      simp only [insertBands, List.mem_append] at hx
      rcases hx with hx | hx
      · exact ⟨0, by simp, by simp, by simpa using hx⟩
      · obtain ⟨j, hj1, hj2, hj3⟩ := ih ks hx
        exact ⟨j + 1, by simpa [Nat.succ_lt_succ_iff] using hj1,
          by simpa [Nat.succ_lt_succ_iff] using hj2, by simpa using hj3⟩

theorem insertBands_dups_sup (bands : List Band) (lsh : List Int) (docId : Int)
    (j : Nat) (hj1 : j < lsh.length) (hj2 : j < bands.length) (x : Int)
    (hx : x ∈ (alookup (bands.getD j []) (lsh.getD j 0)).getD []) :
    x ∈ (insertBands bands lsh docId).1 := by
  induction bands generalizing lsh j with
  | nil => simp at hj2
  | cons bd bs ih =>
    cases lsh with
    | nil => simp at hj1
    | cons k0 ks =>
      cases j with
      | zero =>
        simp only [insertBands, List.mem_append]
        exact Or.inl (by simpa using hx)
      | succ j =>
        simp only [insertBands, List.mem_append]
        exact Or.inr (ih ks j (by simpa [Nat.succ_lt_succ_iff] using hj1)
          (by simpa [Nat.succ_lt_succ_iff] using hj2) (by simpa using hx))

/-! ## `queryBands` lemmas -/

theorem queryBands_length (bands : List Band) (lsh : List Int) :
    (queryBands bands lsh).2.length = bands.length := by
  induction bands generalizing lsh with
  | nil => cases lsh <;> simp [queryBands]
  | cons bd bs ih =>
    cases lsh with
    | nil => simp [queryBands]
    | cons k ks => simp [queryBands, ih]

theorem queryBands_read (bands : List Band) (lsh : List Int) (j : Nat) (k : Int) :
    (alookup ((queryBands bands lsh).2.getD j []) k).getD [] =
      (alookup (bands.getD j []) k).getD [] := by
  induction bands generalizing lsh j with
  | nil => cases lsh <;> simp [queryBands]
  | cons bd bs ih =>
    cases lsh with
    | nil => simp [queryBands]
    | cons k0 ks =>
      cases j with
      | zero =>
        by_cases hs : (alookup bd k0).isSome
        · simp [queryBands, hs]
        · simp [queryBands, hs, alookup_viv_getD]
      | succ j => simpa [queryBands] using ih ks j

/-! ## Minhash signature lemmas -/

theorem pymod_lt (x : Int) (U : Nat) (hU : 0 < U) : pymod x U < U := by
  have h0 : ((U : Nat) : Int) ≠ 0 := by
    simpa using Nat.pos_iff_ne_zero.mp hU
  have h1 : x % (U : Int) < (U : Int) :=
    Int.emod_lt_of_pos x (by exact_mod_cast hU)
  have h2 : 0 ≤ x % (U : Int) := Int.emod_nonneg x h0
  unfold pymod
  omega

theorem pointMin_length (U : Nat) (m : List Nat) (hs : List Int)
    (h : hs.length ≤ m.length) : (pointMin U m hs).length = m.length := by
  induction m generalizing hs with
  | nil =>
    cases hs with
    | nil => simp [pointMin]
    | cons a t => simp at h
  | cons a m ih =>
    cases hs with
    | nil => simp [pointMin]
    | cons h0 hs => simpa [pointMin] using ih hs (by simpa using h)

theorem pointMin_getD (U : Nat) (m : List Nat) (hs : List Int) (i : Nat)
    (h : hs.length ≤ m.length) :
    (pointMin U m hs).getD i 0 =
      if i < hs.length then min (m.getD i 0) (pymod (hs.getD i 0) U)
      else m.getD i 0 := by
  induction m generalizing hs i with
  | nil =>
    cases hs with
    | nil => simp [pointMin]
    | cons a t => simp at h
  | cons a m ih =>
    cases hs with
    | nil => simp [pointMin]
    | cons h0 hs =>
      cases i with
      | zero => simp [pointMin]
      | succ i =>
        simpa [pointMin, Nat.succ_lt_succ_iff] using ih hs i (by simpa using h)

/-- The running-minima characterisation of the `_get_sig` fold, for any
start vector of the right length. -/
theorem getSig_go (U : Nat) (mh : Nat → List Int) (n : Nat) (sv : List Nat)
    (m : List Nat) (hm : m.length = n) (hlen : ∀ x ∈ sv, (mh x).length = n) :
    ∃ sig, sv.foldl (sigStep U mh) (some m) = some sig ∧ sig.length = n ∧
      ∀ i, i < n →
        sig.getD i 0 =
          sv.foldl (fun a x => min a (pymod ((mh x).getD i 0) U)) (m.getD i 0) := by
  induction sv generalizing m with
  | nil => exact ⟨m, rfl, hm, fun i _ => rfl⟩
  | cons x sv ih =>
    have hx : (mh x).length = n := hlen x (List.mem_cons_self x sv)
    have hguard : ¬ m.length < (mh x).length := by omega
    have hlen' : ∀ y ∈ sv, (mh y).length = n := fun y hy =>
      hlen y (List.mem_cons_of_mem x hy)
    have hpm : (pointMin U m (mh x)).length = n := by
      rw [pointMin_length U m (mh x) (by omega)]
      exact hm
    obtain ⟨sig, h1, h2, h3⟩ := ih (pointMin U m (mh x)) hpm hlen'
    refine ⟨sig, ?_, h2, ?_⟩
    · simpa [sigStep, hguard] using h1
    · intro i hi
      have := h3 i hi
      rw [this, pointMin_getD U m (mh x) i (by omega)]
      simp [hx, hi]

theorem getD_replicate {β : Type} (n i : Nat) (a d : β) (hi : i < n) :
    (List.replicate n a).getD i d = a := by
  induction n generalizing i with
  | zero => omega
  | succ n ih =>
    cases i with
    | zero => simp
    | succ i => simpa [List.replicate_succ] using ih i (by omega)

theorem getSig_some (n U : Nat) (mh : Nat → List Int) (sv : List Nat)
    (hlen : ∀ x ∈ sv, (mh x).length = n) :
    ∃ sig, getSig n U mh sv = some sig ∧ sig.length = n ∧
      ∀ i, i < n →
        sig.getD i 0 =
          sv.foldl (fun a x => min a (pymod ((mh x).getD i 0) U)) sentinel := by
  obtain ⟨sig, h1, h2, h3⟩ :=
    getSig_go U mh n sv (List.replicate n sentinel) (by simp) hlen
  refine ⟨sig, h1, h2, fun i hi => ?_⟩
  have h4 := h3 i hi
  rw [getD_replicate n i sentinel 0 hi] at h4
  exact h4

/-! ## Folded-minimum lemmas -/

theorem foldl_min_le_init (f : Nat → Nat) (l : List Nat) (a : Nat) :
    l.foldl (fun acc x => min acc (f x)) a ≤ a := by
  induction l generalizing a with
  | nil => simp
  | cons x l ih =>
    calc l.foldl (fun acc x => min acc (f x)) (min a (f x)) ≤ min a (f x) := ih _
    _ ≤ a := Nat.min_le_left _ _

theorem foldl_min_le_mem (f : Nat → Nat) (l : List Nat) (a : Nat) (x : Nat)
    (hx : x ∈ l) : l.foldl (fun acc y => min acc (f y)) a ≤ f x := by
  induction l generalizing a with
  | nil => simp at hx
  | cons y l ih =>
    rcases List.mem_cons.mp hx with h | h
    · subst h
      calc l.foldl (fun acc y => min acc (f y)) (min a (f x)) ≤ min a (f x) :=
            foldl_min_le_init f l _
      _ ≤ f x := Nat.min_le_right _ _
    · exact ih (min a (f y)) h

theorem foldl_min_cases (f : Nat → Nat) (l : List Nat) (a : Nat) :
    l.foldl (fun acc x => min acc (f x)) a = a ∨
      ∃ x ∈ l, l.foldl (fun acc x => min acc (f x)) a = f x := by
  induction l generalizing a with
  | nil => exact Or.inl rfl
  | cons y l ih =>
    rcases ih (min a (f y)) with h | ⟨x, hx, h⟩
    · by_cases hay : a ≤ f y
      · refine Or.inl ?_
        show List.foldl (fun acc x => min acc (f x)) (min a (f y)) l = a
        rw [h, Nat.min_eq_left hay]
      · refine Or.inr ⟨y, List.mem_cons_self y l, ?_⟩
        show List.foldl (fun acc x => min acc (f x)) (min a (f y)) l = f y
        rw [h, Nat.min_eq_right (Nat.le_of_not_le hay)]
    · exact Or.inr ⟨x, List.mem_cons_of_mem y hx, h⟩

/-! ## Shingler lemmas -/

theorem shingle_mem_padded {α : Type} (sh : Shingler) (doc : List α) (k : Nat)
    (h1 : sh.beginShingle ≤ k) (h2 : k < sh.endShingle) (h3 : doc.length < k) :
    (List.replicate (k - doc.length) (none : Option α) ++ doc.map some) ∈
      shingleList sh doc := by
  unfold shingleList
  rw [List.mem_flatMap]
  refine ⟨k, ?_, ?_⟩
  · rw [List.mem_range'_1]
    omega
  · simp [h3]

theorem shingle_mem_first_gram {α : Type} (sh : Shingler) (doc : List α)
    (h1 : 1 ≤ sh.beginShingle) (h2 : sh.beginShingle < sh.endShingle)
    (h3 : sh.beginShingle ≤ doc.length) :
    ((doc.take sh.beginShingle).map some : List (Option α)) ∈ shingleList sh doc := by
  unfold shingleList
  rw [List.mem_flatMap]
  refine ⟨sh.beginShingle, ?_, ?_⟩
  · rw [List.mem_range'_1]
    omega
  · have hne : ¬ doc.length < sh.beginShingle := by omega
    rw [if_neg hne, List.mem_map]
    refine ⟨0, ?_, by simp⟩
    rw [List.mem_range]
    omega

theorem shingleList_ne_nil {α : Type} (sh : Shingler) (doc : List α)
    (h1 : 1 ≤ sh.beginShingle) (h2 : sh.beginShingle < sh.endShingle) :
    shingleList sh doc ≠ [] := by
  by_cases h3 : doc.length < sh.beginShingle
  · exact List.ne_nil_of_mem (shingle_mem_padded sh doc sh.beginShingle le_rfl h2 h3)
  · exact List.ne_nil_of_mem (shingle_mem_first_gram sh doc h1 h2 (by omega))

/-- On the empty document every shingle length pads, so the shingle stream
is one all-`None` tuple per length. -/
theorem shingleList_nil {α : Type} (sh : Shingler) (h1 : 1 ≤ sh.beginShingle) :
    shingleList sh ([] : List α) =
      (List.range' sh.beginShingle (sh.endShingle - sh.beginShingle)).map
        (fun k => List.replicate k (none : Option α)) := by
  unfold shingleList
  have main : ∀ (l : List Nat), (∀ k ∈ l, 1 ≤ k) →
      (l.flatMap fun k =>
        if ([] : List α).length < k then
          [List.replicate (k - ([] : List α).length) none ++ ([] : List α).map some]
        else
          (List.range (([] : List α).length - (k - 1))).map
            fun j => ((([] : List α).drop j).take k).map some) =
      l.map (fun k => List.replicate k (none : Option α)) := by
    intro l
    induction l with
    | nil => intro _; simp
    | cons k t ih =>
      intro hl
      have hk := hl k (List.mem_cons_self k t)
      simp only [List.flatMap_cons, List.map_cons]
      rw [if_pos (by simpa using hk), ih fun x hx => hl x (List.mem_cons_of_mem k hx)]
      simp
  apply main
  intro k hk
  rw [List.mem_range'_1] at hk
  omega

theorem dedup_ne_nil (l : List Nat) (h : l ≠ []) : l.dedup ≠ [] := by
  cases l with
  | nil => exact absurd rfl h
  | cons x t =>
    exact List.ne_nil_of_mem (List.mem_dedup.mpr (List.mem_cons_self x t))

theorem getShingleVec_ne_nil {α : Type} (c : LSHCache α) (doc : List α)
    (h1 : 1 ≤ c.shingler.beginShingle)
    (h2 : c.shingler.beginShingle < c.shingler.endShingle) :
    getShingleVec c doc ≠ [] := by
  unfold getShingleVec
  apply dedup_ne_nil
  simp only [ne_eq, List.map_eq_nil_iff]
  exact shingleList_ne_nil c.shingler doc h1 h2

/-! ## Configuration-solver lemmas -/

theorem intSqrtFrom_eq_sqrt (n : Nat) :
    ∀ s, Nat.sqrt n ≤ s → intSqrtFrom n s = Nat.sqrt n := by
  intro s
  induction s with
  | zero => intro h; unfold intSqrtFrom; omega
  | succ s ih =>
    intro h
    unfold intSqrtFrom
    by_cases hs : (s + 1) * (s + 1) ≤ n
    · rw [if_pos hs]
      have h1 : s + 1 ≤ Nat.sqrt n := Nat.le_sqrt.mpr hs
      omega
    · rw [if_neg hs]
      apply ih
      by_contra hcon
      have h3 : s + 1 ≤ Nat.sqrt n := by omega
      exact hs (le_trans (Nat.mul_le_mul h3 h3) (Nat.sqrt_le n))

theorem intSqrt_eq_sqrt (n : Nat) : intSqrt n = Nat.sqrt n :=
  intSqrtFrom_eq_sqrt n n (Nat.sqrt_le_self n)

theorem findBFrom_some (n : Nat) :
    ∀ s b, findBFrom n s = some b →
      2 ≤ b ∧ b ≤ s ∧ n % b = 0 ∧ ∀ d, b < d → d ≤ s → n % d ≠ 0 := by
  intro s
  induction s with
  | zero => intro b h; simp [findBFrom] at h
  | succ s ih =>
    intro b h
    cases s with
    | zero => simp [findBFrom] at h
    | succ s' =>
      simp only [findBFrom] at h
      by_cases hdvd : n % (s' + 2) = 0
      · rw [if_pos hdvd] at h
        have hb := Option.some.inj h
        subst hb
        refine ⟨by omega, by omega, hdvd, ?_⟩
        intro d hd1 hd2
        exact absurd hd2 (by omega)
      · rw [if_neg hdvd] at h
        obtain ⟨g1, g2, g3, g4⟩ := ih b h
        refine ⟨g1, by omega, g3, ?_⟩
        intro d hd1 hd2
        by_cases hde : d = s' + 2
        · exact hde ▸ hdvd
        · exact g4 d hd1 (by omega)

theorem findBFrom_none (n : Nat) :
    ∀ s, findBFrom n s = none → ∀ d, 2 ≤ d → d ≤ s → n % d ≠ 0 := by
  intro s
  induction s with
  | zero => intro _ d hd1 hd2 _; omega
  | succ s ih =>
    intro h d hd1 hd2
    cases s with
    | zero => omega
    | succ s' =>
      simp only [findBFrom] at h
      by_cases hdvd : n % (s' + 2) = 0
      · rw [if_pos hdvd] at h
        exact absurd h (by simp)
      · rw [if_neg hdvd] at h
        by_cases hde : d = s' + 2
        · exact hde ▸ hdvd
        · exact ih h d hd1 (by omega)

theorem checkBRN_ok (b r n b' r' n' : Nat)
    (h : checkBRN b r n = Except.ok (b', r', n')) :
    b' = b ∧ r' = r ∧ n' = n ∧ b * r = n := by
  unfold checkBRN at h
  by_cases hbrn : b * r = n
  · rw [if_pos hbrn] at h
    have h2 := Except.ok.inj h
    rw [Prod.mk.injEq, Prod.mk.injEq] at h2
    exact ⟨h2.1.symm, h2.2.1.symm, h2.2.2.symm, hbrn⟩
  · rw [if_neg hbrn] at h
    exact absurd h (by simp)

/-! ## State-evolution lemmas -/

/-- What any single operation preserves or grows: the configuration and
the number of band tables are unchanged, `_seen` membership and bucket
membership only grow. -/
def Evol {α : Type} (c c' : LSHCache α) : Prop :=
  c'.b = c.b ∧ c'.r = c.r ∧ c'.n = c.n ∧ c'.universeSize = c.universeSize ∧
  c'.shingler = c.shingler ∧ c'.shingleHash = c.shingleHash ∧ c'.minhash = c.minhash ∧
  c'.bandHash = c.bandHash ∧ c'.storeSignatures = c.storeSignatures ∧
  c'.dupsOnInsert = c.dupsOnInsert ∧ c'.cache.length = c.cache.length ∧
  (∀ x, (alookup c.seen x).isSome = true → (alookup c'.seen x).isSome = true) ∧
  (∀ j k x, x ∈ bandRead c j k → x ∈ bandRead c' j k)

theorem evol_refl {α : Type} (c : LSHCache α) : Evol c c :=
  ⟨rfl, rfl, rfl, rfl, rfl, rfl, rfl, rfl, rfl, rfl, rfl,
   fun _ h => h, fun _ _ _ h => h⟩

theorem evol_trans {α : Type} (c1 c2 c3 : LSHCache α)
    (h12 : Evol c1 c2) (h23 : Evol c2 c3) : Evol c1 c3 := by
  obtain ⟨a1, a2, a3, a4, a5, a6, a7, a8, a9, a10, a11, a12, a13⟩ := h12
  obtain ⟨b1, b2, b3, b4, b5, b6, b7, b8, b9, b10, b11, b12, b13⟩ := h23
  exact ⟨b1.trans a1, b2.trans a2, b3.trans a3, b4.trans a4, b5.trans a5,
    b6.trans a6, b7.trans a7, b8.trans a8, b9.trans a9, b10.trans a10,
    b11.trans a11, fun x h => b12 x (a12 x h), fun j k x h => b13 j k x (a13 j k x h)⟩

theorem getLshFromDoc_congr {α : Type} (c c' : LSHCache α) (h : Evol c c')
    (doc : List α) : getLshFromDoc c' doc = getLshFromDoc c doc := by
  obtain ⟨a1, a2, a3, a4, a5, a6, a7, a8, _⟩ := h
  unfold getLshFromDoc getShingleVec
  rw [a1, a2, a3, a4, a5, a6, a7, a8]

theorem evol_insMut {α : Type} (c : LSHCache α) (lsh : List Int) (docId : Int) :
    Evol c (insMut c lsh docId) := by
  refine ⟨rfl, rfl, rfl, rfl, rfl, rfl, rfl, rfl, rfl, rfl, ?_, ?_, ?_⟩
  · exact insertBands_length c.cache lsh docId
  · intro x hx
    exact alookup_aset_isSome c.seen docId x _ hx
  · intro j k x hx
    show x ∈ (alookup ((insertBands c.cache lsh docId).2.getD j []) k).getD []
    rw [insertBands_read c.cache lsh docId j k]
    by_cases hcond : j < lsh.length ∧ j < c.cache.length ∧ k = lsh.getD j 0
    · rw [if_pos hcond]
      exact List.mem_append.mpr (Or.inl hx)
    · rw [if_neg hcond]
      exact hx

/-- The new id sits in every addressed band bucket after the mutation. -/
theorem insMut_mem_bucket {α : Type} (c : LSHCache α) (lsh : List Int) (docId : Int)
    (j : Nat) (hj1 : j < lsh.length) (hj2 : j < c.cache.length) :
    docId ∈ bandRead (insMut c lsh docId) j (lsh.getD j 0) := by
  show docId ∈ (alookup ((insertBands c.cache lsh docId).2.getD j []) (lsh.getD j 0)).getD []
  rw [insertBands_read c.cache lsh docId j (lsh.getD j 0)]
  rw [if_pos ⟨hj1, hj2, rfl⟩]
  simp

theorem seenInBuckets_insMut {α : Type} (c : LSHCache α) (lsh : List Int) (docId : Int)
    (h : SeenInBuckets c) : SeenInBuckets (insMut c lsh docId) := by
  intro j k x hx
  have hx' : x ∈ (alookup ((insertBands c.cache lsh docId).2.getD j []) k).getD [] := hx
  rw [insertBands_read c.cache lsh docId j k] at hx'
  show (alookup (aset c.seen docId (if c.storeSignatures then some lsh else none)) x).isSome
    = true
  by_cases hcond : j < lsh.length ∧ j < c.cache.length ∧ k = lsh.getD j 0
  · rw [if_pos hcond] at hx'
    rcases List.mem_append.mp hx' with hold | hnew
    · exact alookup_aset_isSome c.seen docId x _ (h j k x hold)
    · have hxid : x = docId := by simpa using hnew
      subst hxid
      rw [alookup_aset_self]
      rfl
  · rw [if_neg hcond] at hx'
    exact alookup_aset_isSome c.seen docId x _ (h j k x hx')

theorem queryObsEq_refl {α : Type} (c : LSHCache α) : queryObsEq c c :=
  ⟨rfl, rfl, fun _ _ => rfl⟩

theorem queryObsEq_queryBands {α : Type} (c : LSHCache α) (lsh : List Int) :
    queryObsEq c { c with cache := (queryBands c.cache lsh).2 } := by
  refine ⟨rfl, rfl, fun j k => ?_⟩
  show (alookup ((queryBands c.cache lsh).2.getD j []) k).getD [] = bandRead c j k
  exact queryBands_read c.cache lsh j k

theorem queryObsEq_vivHead {α : Type} (c : LSHCache α) (bd : Band) (rest : List Band)
    (hc : c.cache = bd :: rest) (k0 : Int) :
    queryObsEq c
      { c with cache := (if (alookup bd k0).isSome then bd else bd ++ [(k0, [])]) :: rest } := by
  refine ⟨rfl, rfl, fun j k => ?_⟩
  unfold bandRead
  rw [hc]
  cases j with
  | zero =>
    by_cases hs : (alookup bd k0).isSome
    · rw [if_pos hs]
    · rw [if_neg hs]
      simpa using alookup_viv_getD bd k0 k
  | succ j => rfl

theorem seenInBuckets_of_obsEq {α : Type} (c c' : LSHCache α)
    (h : SeenInBuckets c) (hq : queryObsEq c c') : SeenInBuckets c' := by
  intro j k x hx
  rw [hq.2.2 j k] at hx
  rw [hq.1]
  exact h j k x hx

/-- A cache-only update whose table count is unchanged and whose buckets
only grow is an evolution. -/
theorem evol_cache_update {α : Type} (c : LSHCache α) (nc : List Band)
    (hlen : nc.length = c.cache.length)
    (hmono : ∀ j k x, x ∈ bandRead c j k → x ∈ (alookup (nc.getD j []) k).getD []) :
    Evol c { c with cache := nc } :=
  ⟨rfl, rfl, rfl, rfl, rfl, rfl, rfl, rfl, rfl, rfl, hlen,
   fun _ h => h, hmono⟩

/-! ## Operation case analyses -/

theorem lookupLsh_cases {α : Type} (c : LSHCache α) (doc : List α) (docId? : Option Int) :
    (∃ lsh, lookupLsh c doc docId? = Except.ok lsh) ∨
    (∃ e, lookupLsh c doc docId? = Except.error (e, c)) := by
  unfold lookupLsh
  repeat' split
  all_goals
    first
      | exact Or.inl ⟨_, rfl⟩
      | exact Or.inr ⟨_, rfl⟩

theorem lookupLsh_doc_ok {α : Type} (c : LSHCache α) (doc : List α) (docId? : Option Int)
    (lsh : List Int) (hdoc : doc.isEmpty = false)
    (hlsh : getLshFromDoc c doc = some lsh) :
    lookupLsh c doc docId? = Except.ok lsh := by
  unfold lookupLsh
  rw [if_pos hdoc, hlsh]

theorem insert_outcomes {α : Type} (c : LSHCache α) (doc : List α) (docId? : Option Int) :
    (getLshFromDoc c doc = none ∧
      insert c doc docId? = Except.error (PyErr.indexError, c)) ∨
    (∃ lsh, getLshFromDoc c doc = some lsh ∧
      (((alookup c.seen (docId?.getD c.nextId)).isSome = true ∧
          insert c doc docId? = Except.error (PyErr.assertionError, c)) ∨
       ((alookup c.seen (docId?.getD c.nextId)).isSome = false ∧
         ((c.cache.length < lsh.length ∧
             insert c doc docId? =
               Except.error (PyErr.indexError, insMut c lsh (docId?.getD c.nextId))) ∨
          (¬ c.cache.length < lsh.length ∧
            insert c doc docId? = Except.ok
              ((if c.dupsOnInsert then
                  InsertRes.dups (insertBands c.cache lsh (docId?.getD c.nextId)).1
                else InsertRes.newId (docId?.getD c.nextId)),
               insMut c lsh (docId?.getD c.nextId))))))) := by
  cases hlsh : getLshFromDoc c doc with
  | none =>
    refine Or.inl ⟨rfl, ?_⟩
    unfold Lsh.insert
    rw [hlsh]
  | some lsh =>
    have hins : Lsh.insert c doc docId? = insertLsh c lsh (docId?.getD c.nextId) := by
      unfold Lsh.insert
      rw [hlsh]
    refine Or.inr ⟨lsh, rfl, ?_⟩
    rw [hins]
    unfold insertLsh
    by_cases hseen : (alookup c.seen (docId?.getD c.nextId)).isSome = true
    · rw [if_pos hseen]
      exact Or.inl ⟨hseen, rfl⟩
    · rw [if_neg hseen]
      refine Or.inr ⟨by simpa using hseen, ?_⟩
      by_cases hover : c.cache.length < lsh.length
      · rw [if_pos hover]
        exact Or.inl ⟨hover, rfl⟩
      · rw [if_neg hover]
        exact Or.inr ⟨hover, rfl⟩

/-- Inversion of a successful insert. -/
theorem insert_ok_inv {α : Type} (c : LSHCache α) (doc : List α) (docId? : Option Int)
    (res : InsertRes) (c' : LSHCache α)
    (h : insert c doc docId? = Except.ok (res, c')) :
    ∃ lsh, getLshFromDoc c doc = some lsh ∧
      (alookup c.seen (docId?.getD c.nextId)).isSome = false ∧
      ¬ c.cache.length < lsh.length ∧
      c' = insMut c lsh (docId?.getD c.nextId) ∧
      res = (if c.dupsOnInsert then
               InsertRes.dups (insertBands c.cache lsh (docId?.getD c.nextId)).1
             else InsertRes.newId (docId?.getD c.nextId)) := by
  rcases insert_outcomes c doc docId? with ⟨_, he⟩ | ⟨lsh, hlsh, hrest⟩
  · rw [he] at h
    exact absurd h (by simp)
  · rcases hrest with ⟨_, he⟩ | ⟨hseen, hrest⟩
    · rw [he] at h
      exact absurd h (by simp)
    · rcases hrest with ⟨_, he⟩ | ⟨hover, hok⟩
      · rw [he] at h
        exact absurd h (by simp)
      · rw [hok] at h
        have h2 := Except.ok.inj h
        rw [Prod.mk.injEq] at h2
        exact ⟨lsh, hlsh, hseen, hover, h2.2.symm, h2.1.symm⟩

/-- Inversion of a failing insert. -/
theorem insert_error_inv {α : Type} (c : LSHCache α) (doc : List α) (docId? : Option Int)
    (e : PyErr) (c' : LSHCache α)
    (h : insert c doc docId? = Except.error (e, c')) :
    c' = c ∨ ∃ lsh, c' = insMut c lsh (docId?.getD c.nextId) := by
  rcases insert_outcomes c doc docId? with ⟨_, he⟩ | ⟨lsh, _, hrest⟩
  · rw [he] at h
    have h2 := Except.error.inj h
    rw [Prod.mk.injEq] at h2
    exact Or.inl h2.2.symm
  · rcases hrest with ⟨_, he⟩ | ⟨_, hrest⟩
    · rw [he] at h
      have h2 := Except.error.inj h
      rw [Prod.mk.injEq] at h2
      exact Or.inl h2.2.symm
    · rcases hrest with ⟨_, he⟩ | ⟨_, hok⟩
      · rw [he] at h
        have h2 := Except.error.inj h
        rw [Prod.mk.injEq] at h2
        exact Or.inr ⟨lsh, h2.2.symm⟩
      · rw [hok] at h
        exact absurd h (by simp)

/-- Any outcome of `get_dup_buckets` leaves a state `c'` that is either
`c` itself or `c` with the queried tables (observably equal, possibly
with vivified keys). -/
theorem queryObsEq_evol_queryBands {α : Type} (c : LSHCache α) (lsh : List Int) :
    queryObsEq c { c with cache := (queryBands c.cache lsh).2 } ∧
      Evol c { c with cache := (queryBands c.cache lsh).2 } := by
  refine ⟨queryObsEq_queryBands c lsh, ?_⟩
  refine evol_cache_update c _ (queryBands_length c.cache lsh) ?_
  intro j k x hx
  rw [queryBands_read c.cache lsh j k]
  exact hx

theorem getDupBuckets_state {α : Type} (c : LSHCache α) (doc : List α)
    (docId? : Option Int) :
    (∀ bs c', getDupBuckets c doc docId? = Except.ok (bs, c') →
      queryObsEq c c' ∧ Evol c c') ∧
    (∀ e c', getDupBuckets c doc docId? = Except.error (e, c') →
      queryObsEq c c' ∧ Evol c c') := by
  constructor
  · intro bs c' hout
    unfold getDupBuckets at hout
    split at hout
    · exact absurd hout (by simp)
    · split at hout
      · exact absurd hout (by simp)
      · have h2 := Except.ok.inj hout
        rw [Prod.mk.injEq] at h2
        rw [← h2.2]
        exact queryObsEq_evol_queryBands c _
  · intro e c' hout
    unfold getDupBuckets at hout
    split at hout
    · rename_i e0 heq
      have h2 := Except.error.inj hout
      rcases lookupLsh_cases c doc docId? with ⟨lsh0, hl⟩ | ⟨e1, hl⟩
      · rw [hl] at heq
        exact absurd heq (by simp)
      · rw [hl] at heq
        have h3 := Except.error.inj heq
        rw [← h3] at h2
        rw [Prod.mk.injEq] at h2
        rw [← h2.2]
        exact ⟨queryObsEq_refl c, evol_refl c⟩
    · split at hout
      · have h2 := Except.error.inj hout
        rw [Prod.mk.injEq] at h2
        rw [← h2.2]
        exact queryObsEq_evol_queryBands c _
      · exact absurd hout (by simp)


theorem queryObsEq_evol_vivHead {α : Type} (c : LSHCache α) (bd : Band)
    (rest : List Band) (hc : c.cache = bd :: rest) (k0 : Int) :
    queryObsEq c
        { c with cache := (if (alookup bd k0).isSome then bd else bd ++ [(k0, [])]) :: rest } ∧
      Evol c
        { c with cache := (if (alookup bd k0).isSome then bd else bd ++ [(k0, [])]) :: rest } := by
  refine ⟨queryObsEq_vivHead c bd rest hc k0, ?_⟩
  refine evol_cache_update c _ ?_ ?_
  · rw [hc]
    by_cases hs : (alookup bd k0).isSome <;> simp [hs]
  · intro j k2 x hx
    unfold bandRead at hx
    rw [hc] at hx
    cases j with
    | zero =>
      by_cases hs : (alookup bd k0).isSome
      · rw [if_pos hs]
        simpa using hx
      · rw [if_neg hs]
        have h4 := alookup_viv_getD bd k0 k2
        simp only [List.getD_cons_zero]
        rw [h4]
        simpa using hx
    | succ j =>
      by_cases hs : (alookup bd k0).isSome
      · rw [if_pos hs]
        simpa using hx
      · rw [if_neg hs]
        simpa using hx

theorem getDups_state {α : Type} (c : LSHCache α) (doc : List α) (docId? : Option Int) :
    (∀ res c', getDups c doc docId? = Except.ok (res, c') →
      queryObsEq c c' ∧ Evol c c') ∧
    (∀ e c', getDups c doc docId? = Except.error (e, c') →
      queryObsEq c c' ∧ Evol c c') := by
  constructor
  · intro res c' hout
    unfold getDups at hout
    split at hout
    · exact absurd hout (by simp)
    · split at hout
      · split at hout
        · exact absurd hout (by simp)
        · have h2 := Except.ok.inj hout
          rw [Prod.mk.injEq] at h2
          rw [← h2.2]
          exact ⟨queryObsEq_refl c, evol_refl c⟩
      · split at hout
        · exact absurd hout (by simp)
        · exact absurd hout (by simp)
  · intro e c' hout
    unfold getDups at hout
    split at hout
    · rename_i e0 heq
      have h2 := Except.error.inj hout
      rcases lookupLsh_cases c doc docId? with ⟨lsh0, hl⟩ | ⟨e1, hl⟩
      · rw [hl] at heq
        exact absurd heq (by simp)
      · rw [hl] at heq
        have h3 := Except.error.inj heq
        rw [← h3] at h2
        rw [Prod.mk.injEq] at h2
        rw [← h2.2]
        exact ⟨queryObsEq_refl c, evol_refl c⟩
    · split at hout
      · split at hout
        · have h2 := Except.error.inj hout
          rw [Prod.mk.injEq] at h2
          rw [← h2.2]
          exact ⟨queryObsEq_refl c, evol_refl c⟩
        · exact absurd hout (by simp)
      · split at hout
        · have h2 := Except.error.inj hout
          rw [Prod.mk.injEq] at h2
          rw [← h2.2]
          exact ⟨queryObsEq_refl c, evol_refl c⟩
        · rename_i bd rest2 hcache
          have h2 := Except.error.inj hout
          rw [Prod.mk.injEq] at h2
          rw [← h2.2]
          exact queryObsEq_evol_vivHead c bd rest2 hcache _


/-! ## Step and reachability lemmas -/

theorem insert_evol {α : Type} (c : LSHCache α) (doc : List α) (docId? : Option Int) :
    (∀ res c', insert c doc docId? = Except.ok (res, c') → Evol c c') ∧
    (∀ e c', insert c doc docId? = Except.error (e, c') → Evol c c') := by
  constructor
  · intro res c' h
    obtain ⟨lsh, _, _, _, hc', _⟩ := insert_ok_inv c doc docId? res c' h
    rw [hc']
    exact evol_insMut c lsh (docId?.getD c.nextId)
  · intro e c' h
    rcases insert_error_inv c doc docId? e c' h with hc' | ⟨lsh, hc'⟩
    · rw [hc']
      exact evol_refl c
    · rw [hc']
      exact evol_insMut c lsh (docId?.getD c.nextId)

theorem step_evol {α : Type} (c c' : LSHCache α) (h : StepTo c c') : Evol c c' := by
  cases h with
  | insertOk doc docId? res hop => exact (insert_evol c doc docId?).1 res c' hop
  | insertErr doc docId? e hop => exact (insert_evol c doc docId?).2 e c' hop
  | queryOk doc docId? bs hop =>
    exact ((getDupBuckets_state c doc docId?).1 bs c' hop).2
  | queryErr doc docId? e hop =>
    exact ((getDupBuckets_state c doc docId?).2 e c' hop).2
  | dupsOk doc docId? res hop => exact ((getDups_state c doc docId?).1 res c' hop).2
  | dupsErr doc docId? e hop => exact ((getDups_state c doc docId?).2 e c' hop).2

theorem reachableFrom_evol {α : Type} (c c' : LSHCache α) (h : ReachableFrom c c') :
    Evol c c' := by
  induction h with
  | refl => exact evol_refl c
  | tail _ hstep ih => exact evol_trans _ _ _ ih (step_evol _ _ hstep)

theorem insert_seenInBuckets {α : Type} (c : LSHCache α) (doc : List α)
    (docId? : Option Int) (h : SeenInBuckets c) :
    (∀ res c', insert c doc docId? = Except.ok (res, c') → SeenInBuckets c') ∧
    (∀ e c', insert c doc docId? = Except.error (e, c') → SeenInBuckets c') := by
  constructor
  · intro res c' hop
    obtain ⟨lsh, _, _, _, hc', _⟩ := insert_ok_inv c doc docId? res c' hop
    rw [hc']
    exact seenInBuckets_insMut c lsh (docId?.getD c.nextId) h
  · intro e c' hop
    rcases insert_error_inv c doc docId? e c' hop with hc' | ⟨lsh, hc'⟩
    · rw [hc']
      exact h
    · rw [hc']
      exact seenInBuckets_insMut c lsh (docId?.getD c.nextId) h

theorem step_seenInBuckets {α : Type} (c c' : LSHCache α) (hstep : StepTo c c')
    (h : SeenInBuckets c) : SeenInBuckets c' := by
  cases hstep with
  | insertOk doc docId? res hop =>
    exact (insert_seenInBuckets c doc docId? h).1 res c' hop
  | insertErr doc docId? e hop =>
    exact (insert_seenInBuckets c doc docId? h).2 e c' hop
  | queryOk doc docId? bs hop =>
    exact seenInBuckets_of_obsEq c c' h ((getDupBuckets_state c doc docId?).1 bs c' hop).1
  | queryErr doc docId? e hop =>
    exact seenInBuckets_of_obsEq c c' h ((getDupBuckets_state c doc docId?).2 e c' hop).1
  | dupsOk doc docId? res hop =>
    exact seenInBuckets_of_obsEq c c' h ((getDups_state c doc docId?).1 res c' hop).1
  | dupsErr doc docId? e hop =>
    exact seenInBuckets_of_obsEq c c' h ((getDups_state c doc docId?).2 e c' hop).1

theorem getD_replicate_band (b j : Nat) :
    ((List.replicate b ([] : Band)).getD j []) = ([] : Band) := by
  by_cases hj : j < b
  · exact getD_replicate b j ([] : Band) [] hj
  · rw [List.getD_eq_getElem?_getD, List.getElem?_eq_none (by simpa using hj)]
    rfl

theorem mkCache_ok_inv {α : Type} (b? r? n? : Option Nat) (sh : Shingler)
    (shash : List (Option α) → Int) (U : Nat) (mh : Nat → List Int)
    (bh : List Nat → Int) (ss di : Bool) (c0 : LSHCache α)
    (h : mkCache b? r? n? sh shash U mh bh ss di = Except.ok c0) :
    c0.seen = [] ∧ c0.cache = List.replicate c0.b [] := by
  unfold mkCache at h
  split at h
  · exact absurd h (by simp)
  · have h2 := Except.ok.inj h
    rw [← h2]
    exact ⟨rfl, rfl⟩

theorem mkCache_seenInBuckets {α : Type} (b? r? n? : Option Nat) (sh : Shingler)
    (shash : List (Option α) → Int) (U : Nat) (mh : Nat → List Int)
    (bh : List Nat → Int) (ss di : Bool) (c0 : LSHCache α)
    (h : mkCache b? r? n? sh shash U mh bh ss di = Except.ok c0) :
    SeenInBuckets c0 ∧ c0.cache.length = c0.b := by
  obtain ⟨hseen, hcache⟩ := mkCache_ok_inv b? r? n? sh shash U mh bh ss di c0 h
  constructor
  · intro j k x hx
    unfold bandRead at hx
    rw [hcache, getD_replicate_band] at hx
    simp [alookup] at hx
  · rw [hcache]
    simp

theorem reachable_inv {α : Type} (c : LSHCache α) (h : Reachable c) :
    SeenInBuckets c ∧ c.cache.length = c.b := by
  obtain ⟨b?, r?, n?, sh, shash, U, mh, bh, ss, di, c0, hmk, hrf⟩ := h
  obtain ⟨h0, hlen0⟩ := mkCache_seenInBuckets b? r? n? sh shash U mh bh ss di c0 hmk
  clear hmk
  induction hrf with
  | refl => exact ⟨h0, hlen0⟩
  | tail hr hstep ih =>
    obtain ⟨ih1, ih2⟩ := ih
    refine ⟨step_seenInBuckets _ _ hstep ih1, ?_⟩
    obtain ⟨e1, _, _, _, _, _, _, _, _, _, e11, _, _⟩ := step_evol _ _ hstep
    rw [e11, e1]
    exact ih2


/-! ## Claim theorems -/

/-- Claim C7: on every input subset of `(b, r, n)` on which construction
succeeds, the resolved triple satisfies `b * r = n`; with nothing given
the default is `(20, 5, 100)`; with only `n` given the returned `b` is
the largest integer at most `sqrt n` dividing `n` (and is at least 2)
with `r = n / b`; a prime `n` given alone raises the configuration
assertion. -/
theorem lsh_config_solver_spec :
    (∀ b? r? n? b r n, solveConfig b? r? n? = Except.ok (b, r, n) → b * r = n) ∧
    solveConfig none none none = Except.ok (20, 5, 100) ∧
    (∀ n b r m, solveConfig none none (some n) = Except.ok (b, r, m) →
      m = n ∧ b ∣ n ∧ r = n / b ∧ 2 ≤ b ∧ b ≤ Nat.sqrt n ∧
      ∀ d, d ∣ n → d ≤ Nat.sqrt n → d ≤ b) ∧
    (∀ p, Nat.Prime p → solveConfig none none (some p) =
      Except.error PyErr.assertionError) := by
  refine ⟨?_, by rfl, ?_, ?_⟩
  · intro b? r? n? b r n h
    unfold solveConfig at h
    repeat' split at h
    all_goals
      first
        | (obtain ⟨e1, e2, e3, e4⟩ := checkBRN_ok _ _ _ _ _ _ h
           rw [e1, e2, e3]
           try exact e4)
        | exact absurd h (by simp)
  · intro n b r m h
    have h2 : (match findBFrom n (intSqrt n) with
        | some b0 => checkBRN b0 (n / b0) n
        | none => Except.error PyErr.assertionError) = Except.ok (b, r, m) := h
    cases hfb : findBFrom n (intSqrt n) with
    | none =>
      rw [hfb] at h2
      exact absurd h2 (by simp)
    | some b0 =>
      rw [hfb] at h2
      obtain ⟨e1, e2, e3, _⟩ := checkBRN_ok _ _ _ _ _ _ h2
      obtain ⟨g1, g2, g3, g4⟩ := findBFrom_some n (intSqrt n) b0 hfb
      rw [intSqrt_eq_sqrt] at g2 g4
      have hdvd : b0 ∣ n := Nat.dvd_of_mod_eq_zero g3
      rw [e1, e2, e3]
      refine ⟨rfl, hdvd, rfl, g1, g2, ?_⟩
      intro d hd hds
      by_cases hdb : d ≤ b0
      · exact hdb
      · exfalso
        have hmod : n % d = 0 := Nat.mod_eq_zero_of_dvd hd
        exact g4 d (by omega) hds hmod
  · intro p hp
    show (match findBFrom p (intSqrt p) with
        | some b0 => checkBRN b0 (p / b0) p
        | none => Except.error PyErr.assertionError) =
      Except.error PyErr.assertionError
    cases hfb : findBFrom p (intSqrt p) with
    | none => rfl
    | some b0 =>
      exfalso
      obtain ⟨g1, g2, g3, _⟩ := findBFrom_some p (intSqrt p) b0 hfb
      rw [intSqrt_eq_sqrt] at g2
      have hdvd : b0 ∣ p := Nat.dvd_of_mod_eq_zero g3
      rcases (Nat.Prime.eq_one_or_self_of_dvd hp b0 hdvd) with h1 | h1
      · omega
      · subst h1
        have hlt : Nat.sqrt b0 < b0 := Nat.sqrt_lt_self (Nat.Prime.one_lt hp)
        omega


/-- Claim C7 witness: the theorem applied at the concrete inputs
`(b=3, r=4, n=12)` and the prime `7`. -/
theorem lsh_config_solver_spec_witness :
    3 * 4 = 12 ∧
    solveConfig none none (some 7) = Except.error PyErr.assertionError :=
  ⟨lsh_config_solver_spec.1 (some 3) (some 4) (some 12) 3 4 12 (by rfl),
   lsh_config_solver_spec.2.2.2 7 (by norm_num)⟩

/-- Claim C3: for a positive universe `U ≤ 2^63` and a family of exactly
`n` hashes, `_get_sig` succeeds with a signature of length `n`; on the
empty fingerprint set every entry is the `sys.maxint` sentinel; on a
non-empty set entry `i` is the minimum over the set of the `i`-th family
hash reduced mod `U` (a lower bound of all of them that is attained), and
lies in `[0, U)`. -/
theorem lsh_getSig_spec (n U : Nat) (mh : Nat → List Int) (sv : List Nat)
    (hU : 0 < U) (hU2 : U ≤ 2 ^ 63) (hlen : ∀ x ∈ sv, (mh x).length = n) :
    ∃ sig, getSig n U mh sv = some sig ∧ sig.length = n ∧
      (sv = [] → ∀ i, i < n → sig.getD i 0 = sentinel) ∧
      ∀ i, i < n →
        (∀ x ∈ sv, sig.getD i 0 ≤ pymod ((mh x).getD i 0) U) ∧
        (sv ≠ [] →
          (∃ x ∈ sv, sig.getD i 0 = pymod ((mh x).getD i 0) U) ∧
          sig.getD i 0 < U) := by
  obtain ⟨sig, h1, h2, h3⟩ := getSig_some n U mh sv hlen
  refine ⟨sig, h1, h2, ?_, ?_⟩
  · intro hsv i hi
    rw [h3 i hi, hsv]
    rfl
  · intro i hi
    constructor
    · intro x hx
      rw [h3 i hi]
      exact foldl_min_le_mem _ sv sentinel x hx
    · intro hsv
      obtain ⟨x0, hx0⟩ := List.exists_mem_of_ne_nil sv hsv
      have hle : sv.foldl (fun a x => min a (pymod ((mh x).getD i 0) U)) sentinel ≤
          pymod ((mh x0).getD i 0) U :=
        foldl_min_le_mem _ sv sentinel x0 hx0
      have hltU : pymod ((mh x0).getD i 0) U < U := pymod_lt _ U hU
      rcases foldl_min_cases (fun x => pymod ((mh x).getD i 0) U) sv sentinel with
        hcase | ⟨x, hx, hcase⟩
      · have hsent : sentinel = 2 ^ 63 - 1 := rfl
        rw [hcase] at hle
        have hfx0 : pymod ((mh x0).getD i 0) U = sentinel := by omega
        constructor
        · exact ⟨x0, hx0, by rw [h3 i hi, hcase, hfx0]⟩
        · rw [h3 i hi, hcase, ← hfx0]
          exact hltU
      · constructor
        · exact ⟨x, hx, by rw [h3 i hi]; exact hcase⟩
        · rw [h3 i hi]
          exact lt_of_le_of_lt (foldl_min_le_mem _ sv sentinel x0 hx0) hltU

/-- Claim C3 witness: the theorem applied to the family `mhC3` with
`n = 2`, `U = 5` and the fingerprint set `{3, 9}`. -/
theorem lsh_getSig_spec_witness :
    (0 < 5 ∧ 5 ≤ 2 ^ 63) ∧
    (∃ sig, getSig 2 5 mhC3 [3, 9] = some sig ∧ sig.length = 2 ∧
      (([3, 9] : List Nat) = [] → ∀ i, i < 2 → sig.getD i 0 = sentinel) ∧
      ∀ i, i < 2 →
        (∀ x ∈ ([3, 9] : List Nat), sig.getD i 0 ≤ pymod ((mhC3 x).getD i 0) 5) ∧
        (([3, 9] : List Nat) ≠ [] →
          (∃ x ∈ ([3, 9] : List Nat), sig.getD i 0 = pymod ((mhC3 x).getD i 0) 5) ∧
          sig.getD i 0 < 5)) :=
  ⟨⟨by decide, by decide⟩,
   lsh_getSig_spec 2 5 mhC3 [3, 9] (by decide) (by decide) (by decide)⟩


theorem getDups_typeError {α : Type} (c : LSHCache α) (doc : List α)
    (docId? : Option Int) (k : Int) (t : List Int) (bd : Band) (rest : List Band)
    (hlk : lookupLsh c doc docId? = Except.ok (k :: t))
    (hc : c.cache = bd :: rest) :
    getDups c doc docId? =
      Except.error (PyErr.typeError,
        { c with cache := (if (alookup bd k).isSome then bd else bd ++ [(k, [])]) :: rest }) := by
  unfold getDups
  rw [hlk, hc]

/-- Claim C1: `get_dups` never returns the union of the bucket reads.
`_reduce_dup_buckets` folds `set.update` over the buckets with the
built-in *type* `set` as the initial value, so for any cache with at
least one band and any non-empty document the first fold step raises
`TypeError`. -/
theorem lsh_getDups_raises {α : Type} (c : LSHCache α) (doc : List α)
    (docId? : Option Int) (hdoc : doc ≠ []) (hb : 1 ≤ c.b)
    (hlen : c.cache.length = c.b) (hfam : ∀ x, (c.minhash x).length = c.n) :
    exTypeError (getDups c doc docId?) = true := by
  obtain ⟨sig, hsig, hsiglen, _⟩ :=
    getSig_some c.n c.universeSize c.minhash (getShingleVec c doc) (fun x _ => hfam x)
  have hlshdoc : getLshFromDoc c doc = some (getLsh c.b c.r c.bandHash sig) := by
    unfold getLshFromDoc
    rw [hsig]
    rfl
  have hlshlen : (getLsh c.b c.r c.bandHash sig).length = c.b := by simp [getLsh]
  have hdoc' : doc.isEmpty = false := by
    cases doc with
    | nil => exact absurd rfl hdoc
    | cons a t => rfl
  have hlookup : lookupLsh c doc docId? = Except.ok (getLsh c.b c.r c.bandHash sig) :=
    lookupLsh_doc_ok c doc docId? _ hdoc' hlshdoc
  cases hL : getLsh c.b c.r c.bandHash sig with
  | nil =>
    exfalso
    rw [hL] at hlshlen
    simp at hlshlen
    omega
  | cons k t =>
    cases hC : c.cache with
    | nil =>
      exfalso
      rw [hC] at hlen
      simp at hlen
      omega
    | cons bd rest =>
      rw [hL] at hlookup
      rw [getDups_typeError c doc docId? k t bd rest hlookup hC]
      rfl

/-- Claim C1 witness: the concrete single-band cache `cW` and the
document `[1, 2]`. -/
theorem lsh_getDups_raises_witness : exTypeError (getDups cW [1, 2] none) = true :=
  lsh_getDups_raises cW [1, 2] none (by decide) (by decide) rfl (fun _ => rfl)

/-- Claim C8: for a well-formed cache, `insert` fails exactly when the
id (supplied, or `_next_id` when omitted) is already in `_seen`; that
failure is the assertion raised before any mutation, so the reported
state is the unchanged cache, and no other failure is possible. -/
theorem lsh_insert_error_iff_dup {α : Type} (c : LSHCache α) (doc : List α)
    (docId? : Option Int) (hwf : WFCache c) :
    ((insert c doc docId? = Except.error (PyErr.assertionError, c)) ↔
      (alookup c.seen (docId?.getD c.nextId)).isSome = true) ∧
    (∀ e c', insert c doc docId? = Except.error (e, c') →
      e = PyErr.assertionError ∧ c' = c) := by
  obtain ⟨hclen, hUpos, hfam⟩ := hwf
  obtain ⟨sig, hsig, hsiglen, _⟩ :=
    getSig_some c.n c.universeSize c.minhash (getShingleVec c doc) (fun x _ => hfam x)
  have hlshdoc : getLshFromDoc c doc = some (getLsh c.b c.r c.bandHash sig) := by
    unfold getLshFromDoc
    rw [hsig]
    rfl
  have hlshlen : (getLsh c.b c.r c.bandHash sig).length = c.b := by simp [getLsh]
  rcases insert_outcomes c doc docId? with ⟨hnone, _⟩ | ⟨lsh, hsome, hrest⟩
  · rw [hlshdoc] at hnone
    exact absurd hnone (by simp)
  · have hlsheq : lsh = getLsh c.b c.r c.bandHash sig := by
      rw [hlshdoc] at hsome
      exact (Option.some.inj hsome).symm
    rcases hrest with ⟨hseen, herr⟩ | ⟨hseen, hrest2⟩
    · refine ⟨⟨fun _ => hseen, fun _ => herr⟩, ?_⟩
      intro e c' h
      rw [herr] at h
      have h2 := Except.error.inj h
      rw [Prod.mk.injEq] at h2
      exact ⟨h2.1.symm, h2.2.symm⟩
    · rcases hrest2 with ⟨hover, _⟩ | ⟨hover, hok⟩
      · exfalso
        rw [hlsheq, hlshlen, hclen] at hover
        omega
      · refine ⟨⟨?_, ?_⟩, ?_⟩
        · intro h
          rw [hok] at h
          exact absurd h (by simp)
        · intro h
          rw [h] at hseen
          exact absurd hseen (by simp)
        · intro e c' h
          rw [hok] at h
          exact absurd h (by simp)

/-- Claim C8 witness: inserting id 0 twice on the concrete cache raises
the assertion and leaves the state untouched. -/
theorem lsh_insert_error_iff_dup_witness :
    insert cW1 [(1 : Int), 2] (some 0) = Except.error (PyErr.assertionError, cW1) :=
  (lsh_insert_error_iff_dup cW1 [1, 2] (some 0) ⟨rfl, by decide, fun _ => rfl⟩).1.mpr
    (by decide)

/-- Claim C2: on every reachable cache, an insert that returns the
set of the DupSet accumulator never reports the id that was just inserted
(the buckets are read before the id is appended, and a fresh id cannot
already sit in any bucket). -/
theorem lsh_insert_no_self_dup {α : Type} (c c' : LSHCache α) (doc : List α)
    (docId? : Option Int) (l : List Int) (hreach : Reachable c)
    (h : insert c doc docId? = Except.ok (InsertRes.dups l, c')) :
    docId?.getD c.nextId ∉ l := by
  obtain ⟨hsb, _⟩ := reachable_inv c hreach
  obtain ⟨lsh, hlsh, hseen, hover, hc', hres⟩ :=
    insert_ok_inv c doc docId? (InsertRes.dups l) c' h
  by_cases hd : c.dupsOnInsert
  · rw [if_pos hd] at hres
    have hl : l = (insertBands c.cache lsh (docId?.getD c.nextId)).1 :=
      InsertRes.dups.inj hres
    intro hmem
    rw [hl] at hmem
    obtain ⟨j, hj1, hj2, hjmem⟩ := insertBands_dups_sub c.cache lsh _ _ hmem
    have hsome : (alookup c.seen (docId?.getD c.nextId)).isSome = true :=
      hsb j (lsh.getD j 0) _ hjmem
    rw [hseen] at hsome
    exact absurd hsome (by simp)
  · rw [if_neg hd] at hres
    exact absurd hres (by simp)

/-- Claim C2 witness: the theorem applied to the freshly constructed
single-band cache and its first insert. -/
theorem lsh_insert_no_self_dup_witness :
    ((none : Option Int).getD cW.nextId) ∉ ([] : List Int) :=
  lsh_insert_no_self_dup cW cW1 [1, 2] none []
    ⟨some 1, some 1, none, shW, fW, 5, mhW, bhW, false, true, cW, rfl,
      Relation.ReflTransGen.refl⟩
    rfl


theorem getLshFromDoc_length {α : Type} (c : LSHCache α) (doc : List α)
    (lsh : List Int) (h : getLshFromDoc c doc = some lsh) : lsh.length = c.b := by
  unfold getLshFromDoc at h
  cases hs : getSig c.n c.universeSize c.minhash (getShingleVec c doc) with
  | none =>
    rw [hs] at h
    exact absurd h (by simp)
  | some sig =>
    rw [hs] at h
    have h2 := Option.some.inj h
    rw [← h2]
    simp [getLsh]

/-- Claim C4 counterexample: the claim as stated fails on the
constructible degenerate cache `LSHCache(b=0, r=5)`; with no bands the
DupSet result is always empty, so re-inserting the same document under a
fresh id does not report the prior id. -/
theorem lsh_reinsert_full_recall_counterexample :
    ¬ (∀ (c c1 c2 c3 : LSHCache Int) (d : List Int) (id1? id2? : Option Int)
        (r1 : InsertRes) (l : List Int),
        Reachable c → insert c d id1? = Except.ok (r1, c1) →
        ReachableFrom c1 c2 → insert c2 d id2? = Except.ok (InsertRes.dups l, c3) →
        id1?.getD c.nextId ∈ l) := by
  intro h
  have h2 := h cB0 cB0a cB0a cB0b [1, 2] none (some 7) (InsertRes.dups []) []
    ⟨some 0, some 5, none, shW, fW, 5, mh0, bhW, false, true, cB0, rfl,
      Relation.ReflTransGen.refl⟩
    rfl Relation.ReflTransGen.refl rfl
  simp at h2

/-- Claim C4 (amended with `1 ≤ b`): on a reachable cache with at least
one band, if a document was inserted (receiving id `id1`), then any later
insert of the exact same token sequence under a fresh id, with the DupSet
accumulator, reports a set containing `id1`. -/
theorem lsh_reinsert_full_recall {α : Type} (c c1 c2 c3 : LSHCache α) (d : List α)
    (id1? id2? : Option Int) (r1 : InsertRes) (l : List Int)
    (hreach : Reachable c) (hb : 1 ≤ c.b)
    (h1 : insert c d id1? = Except.ok (r1, c1))
    (h12 : ReachableFrom c1 c2)
    (h2 : insert c2 d id2? = Except.ok (InsertRes.dups l, c3)) :
    id1?.getD c.nextId ∈ l := by
  obtain ⟨_, hclen⟩ := reachable_inv c hreach
  obtain ⟨lsh1, hlsh1, hseen1, hover1, hc1, _⟩ := insert_ok_inv c d id1? r1 c1 h1
  have hlen1 : lsh1.length = c.b := getLshFromDoc_length c d lsh1 hlsh1
  have hmem1 : id1?.getD c.nextId ∈ bandRead c1 0 (lsh1.getD 0 0) := by
    rw [hc1]
    exact insMut_mem_bucket c lsh1 _ 0 (by omega) (by omega)
  have hevol12 : Evol c1 c2 := reachableFrom_evol c1 c2 h12
  obtain ⟨f1, f2, f3, f4, f5, f6, f7, f8, f9, f10, f11, f12, f13⟩ := hevol12
  have hmem2 : id1?.getD c.nextId ∈ bandRead c2 0 (lsh1.getD 0 0) :=
    f13 0 (lsh1.getD 0 0) _ hmem1
  obtain ⟨lsh2, hlsh2, hseen2, hover2, hc3, hres2⟩ :=
    insert_ok_inv c2 d id2? (InsertRes.dups l) c3 h2
  have hevolc2 : Evol c c2 :=
    evol_trans _ _ _ ((insert_evol c d id1?).1 r1 c1 h1)
      ⟨f1, f2, f3, f4, f5, f6, f7, f8, f9, f10, f11, f12, f13⟩
  have hl12 : lsh2 = lsh1 := by
    rw [getLshFromDoc_congr c c2 hevolc2 d, hlsh1] at hlsh2
    exact (Option.some.inj hlsh2).symm
  subst hl12
  by_cases hd2 : c2.dupsOnInsert
  · rw [if_pos hd2] at hres2
    have hl : l = (insertBands c2.cache lsh2 (id2?.getD c2.nextId)).1 :=
      InsertRes.dups.inj hres2
    rw [hl]
    obtain ⟨g1, g2, g3, g4, g5, g6, g7, g8, g9, g10, g11, g12, g13⟩ := hevolc2
    refine insertBands_dups_sup c2.cache lsh2 _ 0 (by omega) (by omega) _ hmem2
  · rw [if_neg hd2] at hres2
    exact absurd hres2 (by simp)

/-- Claim C4 witness: the concrete single-band cache; `[1, 2]` inserted
as id 0, re-inserted as id 5, and the DupSet result contains 0. -/
theorem lsh_reinsert_full_recall_witness :
    ((none : Option Int).getD cW.nextId) ∈ [(0 : Int)] :=
  lsh_reinsert_full_recall cW cW1 cW1 cW2 [1, 2] none (some 5) (InsertRes.dups []) [0]
    ⟨some 1, some 1, none, shW, fW, 5, mhW, bhW, false, true, cW, rfl,
      Relation.ReflTransGen.refl⟩
    (by decide) rfl Relation.ReflTransGen.refl rfl


theorem foldl_batchStep_error {α : Type} (docs : List (BatchElem α))
    (st : PyErr × LSHCache α) :
    docs.foldl batchStep (Except.error st) = Except.error st := by
  induction docs with
  | nil => rfl
  | cons e es ih => simpa [batchStep] using ih

theorem insertBatch_go {α : Type} (docs : List (BatchElem α)) (c : LSHCache α)
    (rs0 : List InsertRes) :
    docs.foldl batchStep (Except.ok (rs0, c)) =
      match insertBatchSpec c docs with
      | Except.ok (rs, c') => Except.ok (rs0 ++ rs, c')
      | Except.error st => Except.error st := by
  induction docs generalizing c rs0 with
  | nil => simp [insertBatchSpec]
  | cons e es ih =>
    show es.foldl batchStep (batchStep (Except.ok (rs0, c)) e) = _
    cases hie : insertElem c e with
    | error st =>
      have hstep : batchStep (Except.ok (rs0, c)) e = Except.error st := by
        show (match insertElem c e with
          | Except.error st => Except.error st
          | Except.ok (res, c2) => Except.ok (rs0 ++ [res], c2)) = Except.error st
        rw [hie]
      have hspec : insertBatchSpec c (e :: es) = Except.error st := by
        unfold insertBatchSpec
        rw [hie]
      rw [hstep, foldl_batchStep_error, hspec]
    | ok p =>
      obtain ⟨res, c1⟩ := p
      have hstep : batchStep (Except.ok (rs0, c)) e = Except.ok (rs0 ++ [res], c1) := by
        show (match insertElem c e with
          | Except.error st => Except.error st
          | Except.ok (res2, c2) => Except.ok (rs0 ++ [res2], c2)) = Except.ok (rs0 ++ [res], c1)
        rw [hie]
      have hspec : insertBatchSpec c (e :: es) =
          (match insertBatchSpec c1 es with
           | Except.error st => Except.error st
           | Except.ok (rs, c2) => Except.ok (res :: rs, c2)) := by
        show (match insertElem c e with
          | Except.error st => Except.error st
          | Except.ok (res2, c2) =>
            match insertBatchSpec c2 es with
            | Except.error st => Except.error st
            | Except.ok (rs, c3) => Except.ok (res2 :: rs, c3)) = _
        conv_lhs => rw [hie]
      rw [hstep, ih c1 (rs0 ++ [res]), hspec]
      cases insertBatchSpec c1 es with
      | error st => rfl
      | ok q =>
        obtain ⟨rs, c2⟩ := q
        simp

theorem insertBatchSpec_length {α : Type} (docs : List (BatchElem α)) :
    ∀ (c : LSHCache α) (rs : List InsertRes) (c' : LSHCache α),
      insertBatchSpec c docs = Except.ok (rs, c') → rs.length = docs.length := by
  induction docs with
  | nil =>
    intro c rs c' h
    have h2 := Except.ok.inj h
    rw [Prod.mk.injEq] at h2
    rw [← h2.1]
    rfl
  | cons e es ih =>
    intro c rs c' h
    replace h : (match insertElem c e with
        | Except.error st => Except.error st
        | Except.ok (res2, c2) =>
          match insertBatchSpec c2 es with
          | Except.error st => Except.error st
          | Except.ok (rs2, c3) => Except.ok (res2 :: rs2, c3)) = Except.ok (rs, c') := h
    cases hie : insertElem c e with
    | error st =>
      rw [hie] at h
      exact absurd h (by simp)
    | ok p =>
      obtain ⟨res, c1⟩ := p
      rw [hie] at h
      replace h : (match insertBatchSpec c1 es with
          | Except.error st => Except.error st
          | Except.ok (rs2, c3) => Except.ok (res :: rs2, c3)) = Except.ok (rs, c') := h
      cases hsp : insertBatchSpec c1 es with
      | error st =>
        rw [hsp] at h
        exact absurd h (by simp)
      | ok q =>
        obtain ⟨rs2, c2⟩ := q
        rw [hsp] at h
        have h2 := Except.ok.inj h
        rw [Prod.mk.injEq] at h2
        rw [← h2.1]
        have hlen := ih c1 rs2 c2 hsp
        simp [hlen]

/-- Claim C5 counterexample: with integer tokens, `insert_batch` does not
treat every element as one document — a two-token document is
destructured as `insert(doc[0], doc[1])` and raises `TypeError`, while
inserting it as one document succeeds. -/
theorem lsh_insertBatch_counterexample :
    ¬ (∀ (c : LSHCache Int) (docs : List (List Int)),
        insertBatchIntTokens c docs = insertBatchAsDocs c docs) := by
  intro h
  have h2 := congrArg Except.isOk (h cW [[5, 7]])
  exact absurd h2 (by decide)

/-- Claim C5 (amended): `insert_batch` invokes `insert` once per element
in order — destructuring a `(doc, id)`-shaped element into
`insert(doc, id)` instead of treating it as one document — and returns
the list of the per-element results in the same order (hence of the
same length). -/
theorem lsh_insertBatch_per_element {α : Type} :
    (∀ (c : LSHCache α) (docs : List (BatchElem α)),
      insertBatch c docs = insertBatchSpec c docs) ∧
    (∀ (c : LSHCache α) (docs : List (BatchElem α)) rs c',
      insertBatch c docs = Except.ok (rs, c') → rs.length = docs.length) := by
  have hmain : ∀ (c : LSHCache α) (docs : List (BatchElem α)),
      insertBatch c docs = insertBatchSpec c docs := by
    intro c docs
    unfold insertBatch
    rw [insertBatch_go docs c []]
    cases insertBatchSpec c docs with
    | error st => rfl
    | ok p =>
      obtain ⟨rs, c'⟩ := p
      simp
  refine ⟨hmain, ?_⟩
  intro c docs rs c' h
  rw [hmain c docs] at h
  exact insertBatchSpec_length docs c rs c' h

/-- Claim C5 witness: one plain element batch on the concrete cache. -/
theorem lsh_insertBatch_per_element_witness :
    ([InsertRes.dups []] : List InsertRes).length =
      [BatchElem.doc ([1, 2] : List Int)].length :=
  lsh_insertBatch_per_element.2 cW [BatchElem.doc [1, 2]] [InsertRes.dups []] cW1 rfl

/-- Claim C6 counterexample: a query on the concrete fresh cache returns
a state whose band table is not identical to the one before (the
`defaultdict` materialised an empty bucket for the queried band key). -/
theorem lsh_query_counterexample :
    ¬ (∀ (c : LSHCache Int) (doc : List Int) (docId? : Option Int) bs c',
        getDupBuckets c doc docId? = Except.ok (bs, c') → c' = c) := by
  intro h
  have h2 := congrArg LSHCache.cache (h cW [1, 2] none [[]] cWviv rfl)
  exact absurd h2 (by decide)

/-- Claim C6 (amended): `get_dup_buckets` and `get_dups` leave `_seen`,
`_next_id` and the contents of every bucket unchanged (every key reads
the same id list before and after); the only state effect is that the
`defaultdict` tables may materialise empty entries for queried keys. -/
theorem lsh_query_preserves_observable {α : Type} (c : LSHCache α) (doc : List α)
    (docId? : Option Int) :
    (∀ bs c', getDupBuckets c doc docId? = Except.ok (bs, c') → queryObsEq c c') ∧
    (∀ e c', getDupBuckets c doc docId? = Except.error (e, c') → queryObsEq c c') ∧
    (∀ res c', getDups c doc docId? = Except.ok (res, c') → queryObsEq c c') ∧
    (∀ e c', getDups c doc docId? = Except.error (e, c') → queryObsEq c c') :=
  ⟨fun bs c' h => ((getDupBuckets_state c doc docId?).1 bs c' h).1,
   fun e c' h => ((getDupBuckets_state c doc docId?).2 e c' h).1,
   fun res c' h => ((getDups_state c doc docId?).1 res c' h).1,
   fun e c' h => ((getDups_state c doc docId?).2 e c' h).1⟩

/-- Claim C6 witness: the `get_dups` call on the fresh concrete cache
(whose escaped state is the vivified `cWviv`) preserves `_seen`,
`_next_id` and the bucket read at the queried key. -/
theorem lsh_query_preserves_observable_witness :
    cWviv.seen = cW.seen ∧ cWviv.nextId = cW.nextId ∧
      bandRead cWviv 0 2 = bandRead cW 0 2 := by
  have h := (lsh_query_preserves_observable cW [1, 2] none).2.2.2 PyErr.typeError cWviv rfl
  exact ⟨h.1, h.2.1, h.2.2 0 2⟩

/-- Claim C9 counterexample: with the default shingle length 2, the empty
shingle set of the empty document is the singleton padded shingle, not the empty
set, and its signature is not the all-sentinels vector. -/
theorem lsh_empty_doc_counterexample :
    shingleList shW ([] : List Int) ≠ [] ∧
    getSig cW.n cW.universeSize cW.minhash (getShingleVec cW ([] : List Int)) ≠
      some (List.replicate cW.n sentinel) := by
  constructor
  · decide
  · decide

/-- Claim C9 (amended): an empty document produces, for each shingle
length `k`, the single all-sentinel padded shingle (a non-empty shingle
stream); hence the id of an inserted empty document sits in the bucket of
every band key that any later empty document hashes to — two empty
documents collide in every band. -/
theorem lsh_empty_doc_padded {α : Type} :
    (∀ (sh : Shingler), 1 ≤ sh.beginShingle → sh.beginShingle < sh.endShingle →
      shingleList sh ([] : List α) =
        (List.range' sh.beginShingle (sh.endShingle - sh.beginShingle)).map
          (fun k => List.replicate k (none : Option α)) ∧
      shingleList sh ([] : List α) ≠ []) ∧
    (∀ (c c1 : LSHCache α) (id1? : Option Int) (r1 : InsertRes) (lsh : List Int),
      c.cache.length = c.b →
      insert c ([] : List α) id1? = Except.ok (r1, c1) →
      getLshFromDoc c1 ([] : List α) = some lsh →
      ∀ j, j < c1.b → id1?.getD c.nextId ∈ bandRead c1 j (lsh.getD j 0)) := by
  constructor
  · intro sh h1 h2
    exact ⟨shingleList_nil sh h1, shingleList_ne_nil sh [] h1 h2⟩
  · intro c c1 id1? r1 lsh hclen h1 hlsh j hj
    obtain ⟨lsh0, hlsh0, _, hover, hc1, _⟩ := insert_ok_inv c [] id1? r1 c1 h1
    have hlen0 : lsh0.length = c.b := getLshFromDoc_length c [] lsh0 hlsh0
    have hevol : Evol c c1 := (insert_evol c [] id1?).1 r1 c1 h1
    have hleq : lsh = lsh0 := by
      rw [getLshFromDoc_congr c c1 hevol [], hlsh0] at hlsh
      exact (Option.some.inj hlsh).symm
    subst hleq
    obtain ⟨e1, _⟩ := hevol
    rw [hc1]
    refine insMut_mem_bucket c lsh _ j ?_ ?_
    · rw [hlen0]
      rw [e1] at hj
      omega
    · rw [hclen]
      rw [e1] at hj
      omega

/-- Claim C9 witness: inserting the empty document into the concrete
cache gives id 0, and the single band key of a later empty document finds it. -/
theorem lsh_empty_doc_padded_witness :
    (shingleList shW ([] : List Int) =
        (List.range' shW.beginShingle (shW.endShingle - shW.beginShingle)).map
          (fun k => List.replicate k (none : Option Int)) ∧
      shingleList shW ([] : List Int) ≠ []) ∧
    ((none : Option Int).getD cW.nextId) ∈
      bandRead cW1 0 (([(2 : Int)] : List Int).getD 0 0) := by
  constructor
  · exact (@lsh_empty_doc_padded Int).1 shW (by decide) (by decide)
  · exact (@lsh_empty_doc_padded Int).2 cW cW1 none (InsertRes.dups []) [2] rfl rfl rfl
      0 (by decide)

/-- Claim C10: a valid shingler yields at least one shingle for every
document (for each length `k` exceeding the document, the single padded
tuple), so the fingerprint set is never empty and, for a positive
universe and an `n`-hash family, every signature entry computed from a
document lies in `[0, universe_size)`. -/
theorem lsh_shingle_nonempty_sig_bounded {α : Type} :
    (∀ (sh : Shingler) (doc : List α),
      1 ≤ sh.beginShingle → sh.beginShingle < sh.endShingle →
      shingleList sh doc ≠ [] ∧
      ∀ k, sh.beginShingle ≤ k → k < sh.endShingle → doc.length < k →
        (List.replicate (k - doc.length) (none : Option α) ++ doc.map some) ∈
          shingleList sh doc) ∧
    (∀ (c : LSHCache α) (doc : List α),
      1 ≤ c.shingler.beginShingle → c.shingler.beginShingle < c.shingler.endShingle →
      getShingleVec c doc ≠ [] ∧
      (0 < c.universeSize → (∀ x, (c.minhash x).length = c.n) →
        ∃ sig, getSig c.n c.universeSize c.minhash (getShingleVec c doc) = some sig ∧
          sig.length = c.n ∧ ∀ i, i < c.n → sig.getD i 0 < c.universeSize)) := by
  constructor
  · intro sh doc h1 h2
    exact ⟨shingleList_ne_nil sh doc h1 h2,
      fun k hk1 hk2 hk3 => shingle_mem_padded sh doc k hk1 hk2 hk3⟩
  · intro c doc h1 h2
    refine ⟨getShingleVec_ne_nil c doc h1 h2, ?_⟩
    intro hU hfam
    obtain ⟨sig, hs1, hs2, hs3⟩ :=
      getSig_some c.n c.universeSize c.minhash (getShingleVec c doc) (fun x _ => hfam x)
    refine ⟨sig, hs1, hs2, ?_⟩
    intro i hi
    rw [hs3 i hi]
    obtain ⟨x0, hx0⟩ :=
      List.exists_mem_of_ne_nil _ (getShingleVec_ne_nil c doc h1 h2)
    exact lt_of_le_of_lt (foldl_min_le_mem _ _ sentinel x0 hx0) (pymod_lt _ _ hU)

/-- Claim C10 witness: the one-token document `[1]` on the concrete
cache: non-empty shingles, non-empty fingerprints, entries below the
universe size. -/
theorem lsh_shingle_nonempty_sig_bounded_witness :
    shingleList shW ([1] : List Int) ≠ [] ∧
    getShingleVec cW ([1] : List Int) ≠ [] ∧
    (∃ sig, getSig cW.n cW.universeSize cW.minhash (getShingleVec cW ([1] : List Int)) =
        some sig ∧ sig.length = cW.n ∧ ∀ i, i < cW.n → sig.getD i 0 < cW.universeSize) :=
  ⟨((@lsh_shingle_nonempty_sig_bounded Int).1 shW [1] (by decide) (by decide)).1,
   ((@lsh_shingle_nonempty_sig_bounded Int).2 cW [1] (by decide) (by decide)).1,
   ((@lsh_shingle_nonempty_sig_bounded Int).2 cW [1] (by decide) (by decide)).2
     (by decide) (fun _ => rfl)⟩

end Lsh
